import Mathlib

set_option maxHeartbeats 1000000

/- Verification of the Lopez (2012) MFAS-based ranking pipeline of
   csv2ranking.py: judgment parsing and aggregation, equality resolution,
   tournament reduction, exact MFAS state-space search, tie marking and
   row building.

   Python dicts and Counters are modelled as association lists iterated in
   insertion order; dict iteration order in the reference interpreter is
   unspecified, so insertion order is the deterministic choice made here.
   Counter getitem of a missing key yields 0 without inserting, and
   Counter delitem of a missing key is a no-op, exactly as in Python 2.7.
   The search loop of run_lopez_mfas_solver is given explicit fuel; the
   loop in the source terminates by a decreasing agenda measure, and every
   theorem about it is conditioned on the loop having reached the goal,
   which concrete witnesses discharge by evaluation. -/

/- The empty string, which is falsy in Python (the backtracking condition
   while h.vertex treats it like None). -/
def blankId : String := ""

/- Association lists standing in for Python dict / Counter. -/

def lookupKV {κ ν : Type} [DecidableEq κ] : List (κ × ν) → κ → Option ν
  | [], _ => none
  | e :: l, key => if e.1 = key then some e.2 else lookupKV l key

def containsKV {κ ν : Type} [DecidableEq κ] (m : List (κ × ν)) (k : κ) : Bool :=
  (lookupKV m k).isSome

/- Counter-style read: a missing key reads as 0. -/
def lookup0 {κ : Type} [DecidableEq κ] (m : List (κ × Nat)) (k : κ) : Nat :=
  (lookupKV m k).getD 0

/- Python del, tolerant of missing keys as Counter.__delitem__ is. -/
def eraseKV {κ ν : Type} [DecidableEq κ] (m : List (κ × ν)) (k : κ) : List (κ × ν) :=
  m.filter (fun e => decide (e.1 ≠ k))

/- Python dict assignment: replace in place, or append a fresh key. -/
def setKV {κ ν : Type} [DecidableEq κ] (m : List (κ × ν)) (k : κ) (v : ν) : List (κ × ν) :=
  if containsKV m k then m.map (fun e => if e.1 = k then (k, v) else e) else m ++ [(k, v)]

/- Counter increment: m[k] += 1. -/
def incrKV {κ : Type} [DecidableEq κ] (m : List (κ × Nat)) (k : κ) : List (κ × Nat) :=
  setKV m k (lookup0 m k + 1)

def keysOf {κ ν : Type} (m : List (κ × ν)) : List κ :=
  m.map Prod.fst

/- Weighted directed edges, keyed by ordered vertex pair. -/
abbrev EMap := List ((String × String) × Nat)

/- A search hypothesis: namedtuple("hypothesis", "cost, state, predecessor,
   vertex").  The initial hypothesis is hypothesis(0, empty_state, None,
   None); every other hypothesis has a real predecessor and vertex. -/
inductive Hypothesis : Type where
  | init : Hypothesis
  | node (cost : Nat) (state : Nat) (pred : Hypothesis) (vertex : String) : Hypothesis
deriving DecidableEq

def Hypothesis.cost : Hypothesis → Nat
  | .init => 0
  | .node c _ _ _ => c

def Hypothesis.state : Hypothesis → Nat
  | .init => 0
  | .node _ s _ _ => s

/- Backtracking loop at the end of run_lopez_mfas_solver:
   while h.vertex: ranking.append(h.vertex); h = h.predecessor.
   A None vertex and the empty string are both falsy in Python. -/
def Hypothesis.ranking : Hypothesis → List String
  | .init => []
  | .node _ _ p v => if v = blankId then [] else v :: p.ranking

/- The order in which vertices were placed along the hypothesis's path
   (first-added first); used only in specifications. -/
def Hypothesis.placement : Hypothesis → List String
  | .init => []
  | .node _ _ p v => p.placement ++ [v]

/- States are BitVector values read as naturals; bit i covers vertex i. -/
abbrev AgendaT := List (Nat × Hypothesis)

/- uncovered(bv): indices of clear bits, in ascending order. -/
def uncovered (n : Nat) (state : Nat) : List Nat :=
  (List.range n).filter (fun i => !(state.testBit i))

/- goal = BitVector(bitlist=[1]*n). -/
def goalState (n : Nat) : Nat := 2 ^ n - 1

/- sorted(agenda.itervalues(), key=lambda h: h.cost)[0]: the sort is
   stable, so ties keep iteration order and the first minimum wins. -/
def minHyp : AgendaT → Option Hypothesis
  | [] => none
  | e :: rest =>
    match minHyp rest with
    | none => some e.2
    | some m => if m.cost < e.2.cost then some m else some e.2

/- if new_state not in agenda or agenda[new_state].cost > new_cost:
     agenda[new_state] = hypothesis(new_cost, new_state, h, u_id) -/
def updateAgenda (ag : AgendaT) (st : Nat) (h : Hypothesis) : AgendaT :=
  match lookupKV ag st with
  | none => ag ++ [(st, h)]
  | some old => if old.cost > h.cost then setKV ag st h else ag

def childState (st u : Nat) : Nat := st ||| (1 <<< u)

/- Sum of costs of outgoing edges from u to still-uncovered vertices;
   "if uv_edge in di_edges: added_cost += di_edges[uv_edge]". -/
def addedCost (E : EMap) (V : List String) (uId : String) (ns : Nat) : Nat :=
  ((uncovered V.length ns).map (fun v => lookup0 E (uId, V.getD v blankId))).sum

/- Body of the expansion loop for one uncovered index u. -/
def expandStep (E : EMap) (V : List String) (h : Hypothesis) (ag : AgendaT) (u : Nat) : AgendaT :=
  updateAgenda ag (childState h.state u)
    (Hypothesis.node (h.cost + addedCost E V (V.getD u blankId) (childState h.state u))
      (childState h.state u) h (V.getD u blankId))

/- One expansion of the popped hypothesis h: append every uncovered u. -/
def expandHyp (E : EMap) (V : List String) (h : Hypothesis) (ag : AgendaT) : AgendaT :=
  (uncovered V.length h.state).foldl (expandStep E V h) ag

/- The while-loop of run_lopez_mfas_solver.  The source loop terminates on
   its own; fuel only bounds the number of pops modelled here.  The
   agenda-empty fallthrough of the source is unreachable for a non-empty
   vertex set and is mapped to none. -/
def lopezLoop (E : EMap) (V : List String) : Nat → AgendaT → Option Hypothesis
  | 0, _ => none
  | fuel + 1, ag =>
    match minHyp ag with
    | none => none
    | some h =>
      if h.state = goalState V.length then some h
      else lopezLoop E V fuel (expandHyp E V h (eraseKV ag h.state))

/- The goal hypothesis reached by the search, before backtracking. -/
def lopezGoalHyp (E : EMap) (V : List String) (fuel : Nat) : Option Hypothesis :=
  lopezLoop E V fuel [(0, Hypothesis.init)]

/- run_lopez_mfas_solver: search, then extract the 1-best ranking by
   backtracking from the goal hypothesis. -/
def run_lopez_mfas_solver (E : EMap) (V : List String) (fuel : Nat) : Option (List String) :=
  (lopezGoalHyp E V fuel).map Hypothesis.ranking

/- A parsed, normalized judgment (class Ranking): sysA is the winner when
   rank = 1; rank = 0 records equality with sysA = sys2, sysB = sys1. -/
structure RankingJ : Type where
  sysA : String
  sysB : String
  rank : Nat
deriving DecidableEq

/- Ranking.rank_to_int: '<' means sys1 better (-1), '>' means sys2 better
   (1), '=' means equal (0); anything else raises RuntimeError. -/
def rank_to_int (rank : String) : Except String Int :=
  if rank = "<" then Except.ok (-1)
  else if rank = ">" then Except.ok 1
  else if rank = "=" then Except.ok 0
  else Except.error ("Invalid ranking: " ++ rank)

/- Ranking.__init__ after rank_to_int: normalize so sysA is the winner
   (rank 1) or, for equality, sysA = sys2 with rank 0. -/
def mkRanking (src_id : Int) (sys1_id sys2_id : String) (rank : String) :
    Except String (Int × RankingJ) :=
  match rank_to_int rank with
  | Except.error e => Except.error e
  | Except.ok r =>
    if r < 0 then Except.ok (src_id, ⟨sys1_id, sys2_id, 1⟩)
    else Except.ok (src_id, ⟨sys2_id, sys1_id, r.toNat⟩)

/- The record loop of parse_answer_file: an uncaught RuntimeError from the
   first bad record aborts the whole file. -/
def parseRecords : List (Int × String × String × String) → Except String (List RankingJ)
  | [] => Except.ok []
  | (sid, s1, s2, c) :: rest =>
    match mkRanking sid s1 s2 c with
    | Except.error e => Except.error e
    | Except.ok r =>
      match parseRecords rest with
      | Except.error e => Except.error e
      | Except.ok js => Except.ok (r.2 :: js)

/- Python set() of vertices, listed in first-insertion order (the
   reference set order is hash-dependent and unspecified). -/
def insertVertex (vs : List String) (v : String) : List String :=
  if v ∈ vs then vs else vs ++ [v]

structure AggState : Type where
  di : EMap
  eq : EMap
  counts : EMap
  verts : List String
deriving DecidableEq

/- One iteration of the aggregation loop of sort_tgts. -/
def aggStep (s : AggState) (j : RankingJ) : AggState :=
  { di := if j.rank = 0 then s.di else incrKV s.di (j.sysA, j.sysB)
    eq := if j.rank = 0 then incrKV s.eq (j.sysA, j.sysB) else s.eq
    counts := incrKV s.counts (j.sysA, j.sysB)
    verts := insertVertex (insertVertex s.verts j.sysA) j.sysB }

/- The aggregation loop of sort_tgts: per ordered pair (sysA, sysB) count
   every judgment in edge_counts, equality judgments in eq_edges and
   directional judgments in di_edges; collect the vertex set. -/
def aggregate (rl : List RankingJ) : AggState :=
  rl.foldl aggStep ⟨[], [], [], []⟩

/- The equality special case of sort_tgts.  The source compares
   float(n_eq)/float(total) >= 0.5 in double precision; for all counts
   below 2^53 that comparison is exactly 2 * n_eq >= total, which is the
   form used here (total >= 1 whenever eq_edges has an entry for the pair,
   so the division is defined). -/
def eqStep (eq counts : EMap) (di : EMap) (e : (String × String) × Nat) : EMap :=
  if 2 * (e.2 + lookup0 eq (e.1.2, e.1.1)) ≥
      lookup0 counts (e.1.1, e.1.2) + lookup0 counts (e.1.2, e.1.1) then
    eraseKV (eraseKV di (e.1.1, e.1.2)) (e.1.2, e.1.1)
  else di

def eqResolve (eq counts di : EMap) : EMap :=
  eq.foldl (eqStep eq counts) di

/- The tournament filter of sort_tgts: keep at most one directed edge per
   vertex pair, weighted by the margin of victories. -/
def reduceStep (di : EMap) (t : EMap) (e : (String × String) × Nat) : EMap :=
  if containsKV di (e.1.2, e.1.1) then
    if lookup0 di (e.1.1, e.1.2) > lookup0 di (e.1.2, e.1.1) then
      setKV t (e.1.1, e.1.2) (lookup0 di (e.1.1, e.1.2) - lookup0 di (e.1.2, e.1.1))
    else if lookup0 di (e.1.2, e.1.1) > lookup0 di (e.1.1, e.1.2) then
      setKV t (e.1.2, e.1.1) (lookup0 di (e.1.2, e.1.1) - lookup0 di (e.1.1, e.1.2))
    else t
  else setKV t (e.1.1, e.1.2) (lookup0 di (e.1.1, e.1.2))

def reduceEdges (di : EMap) : EMap :=
  di.foldl (reduceStep di) []

/- mark_ties: position i is tied with its predecessor iff the edge
   (ranking[i-1], ranking[i]) is present with weight exactly 0. -/
def mark_ties (ranking : List String) (edges : EMap) : List Bool :=
  (List.range ranking.length).map (fun i =>
    if i = 0 then false
    else
      match lookupKV edges (ranking.getD (i - 1) blankId, ranking.getD i blankId) with
      | some w => w == 0
      | none => false)

/- RankRow = namedtuple('RankRow', 'src_id sys_id rank'); src_id is filled
   in later by the caller. -/
structure RankRow : Type where
  src_id : Option Int
  sys_id : String
  rank : Nat
deriving DecidableEq

def make_rows_go (tie : List Bool) : Nat → Nat → List String → List RankRow
  | _, _, [] => []
  | i, last, sys :: rest =>
    (RankRow.mk none sys (if tie.getD i false then last else i + 1)) ::
      make_rows_go tie (i + 1) (if tie.getD i false then last else i + 1) rest

/- make_rows: 1-indexed ranks, a tied position repeats the previous rank. -/
def make_rows (id_list : List String) (tie : List Bool) : List RankRow :=
  make_rows_go tie 0 0 id_list

/- sort_tgts for one source item.  The solver call in the source is
   mfas_solver.lopez_solver; that module is not part of this repository,
   and the spec describes it as the Lopez (2012) MFAS search whose
   reference implementation run_lopez_mfas_solver appears (commented out
   at the call site) in this very file, so the latter is used.  The assert
   len(ranking) == len(vertices) and fuel exhaustion both map to none. -/
def sort_tgts (fuel : Nat) (rl : List RankingJ) : Option (List RankRow) :=
  match run_lopez_mfas_solver (reduceEdges (eqResolve (aggregate rl).eq
      (aggregate rl).counts (aggregate rl).di)) (aggregate rl).verts fuel with
  | none => none
  | some ranking =>
    if ranking.length = (aggregate rl).verts.length then
      some (make_rows ranking (mark_ties ranking
        (eqResolve (aggregate rl).eq (aggregate rl).counts (aggregate rl).di)))
    else none

/- Specification-side cost functions (from the spec's cost rule). -/

/- Total weight of edges from u into the vertices of vs. -/
def sumTo (E : EMap) (u : String) (vs : List String) : Nat :=
  (vs.map (fun v => lookup0 E (u, v))).sum

/- Cost of placing the vertices of q in order, with rem the vertices not
   yet placed (spec 4.4: placing u next costs the weight of every edge
   from u to a vertex that is still unplaced afterwards). -/
def placeCost (E : EMap) : List String → List String → Nat
  | _, [] => 0
  | rem, u :: q => sumTo E u (rem.erase u) + placeCost E (rem.erase u) q

/- The vertices of rem still unplaced after placing the vertices of q. -/
def remAfter (rem : List String) (q : List String) : List String :=
  q.foldl (fun r v => r.erase v) rem

/- Cost of a full placement listed in placement order. -/
def flatCost (E : EMap) : List String → Nat
  | [] => 0
  | u :: q => sumTo E u q + flatCost E q

/- Total weight of edges pointing backward relative to the permutation p
   (an edge (u, v) is backward when u occurs after v in p). -/
def backCost (E : EMap) : List String → Nat
  | [] => 0
  | u :: q => (q.map (fun v => lookup0 E (v, u))).sum + backCost E q

/- Well-formedness of a hypothesis relative to the tournament E and
   vertex list V: its placement is a duplicate-free sublist of V, its
   state has exactly the bits of the placed vertices, and its cost is the
   accumulated placement cost. -/
structure WfH (E : EMap) (V : List String) (h : Hypothesis) : Prop where
  nodup : h.placement.Nodup
  sub : ∀ v ∈ h.placement, v ∈ V
  bits : ∀ i : Nat, h.state.testBit i ↔ (i < V.length ∧ V.getD i blankId ∈ h.placement)
  cost : h.cost = placeCost E V h.placement
  lt : h.state < 2 ^ V.length

/- Invariant of the agenda during the search: unique state keys, each
   entry keyed by its own well-formed state, and, for every permutation p
   of V, some entry underbids the cost of some prefix of p. -/
structure InvAgenda (E : EMap) (V : List String) (A : AgendaT) : Prop where
  keys : (A.map Prod.fst).Nodup
  wf : ∀ st h, lookupKV A st = some h → h.state = st ∧ WfH E V h
  lower : ∀ p : List String, p.Perm V → ∃ q h', (∃ r, p = q ++ r) ∧
    lookupKV A h'.state = some h' ∧ h'.placement.Perm q ∧ h'.cost ≤ placeCost E V q

/- Every vertex on the hypothesis's path lies in V (used for claims that
   do not need the full well-formedness invariant). -/
def pathIn (V : List String) : Hypothesis → Prop
  | .init => True
  | .node _ _ p v => v ∈ V ∧ pathIn V p

/- Concrete instances used by witnesses and counterexamples. -/

def exE : EMap := [(("A", "B"), 1)]

def exV : List String := ["A", "B"]

def strayE : EMap := [(("C", "A"), 5)]

def emptyIdE : EMap := [(("A", ""), 1)]

def emptyIdV : List String := ["A", ""]

def emptyIdRl : List RankingJ := [⟨"A", "", 1⟩]

/- Spec scenario 2: judgments A=B four times (stored as ("B","A") with
   rank 0) and A>B once (stored as ("A","B") with rank 1). -/
def scenarioRl : List RankingJ :=
  [⟨"B", "A", 0⟩, ⟨"B", "A", 0⟩, ⟨"B", "A", 0⟩, ⟨"B", "A", 0⟩, ⟨"A", "B", 1⟩]

/- Association-list lemmas. -/

theorem lookupKV_nil {κ ν : Type} [DecidableEq κ] (k : κ) :
    lookupKV ([] : List (κ × ν)) k = none := rfl

theorem lookupKV_cons {κ ν : Type} [DecidableEq κ] (e : κ × ν) (l : List (κ × ν)) (k : κ) :
    lookupKV (e :: l) k = if e.1 = k then some e.2 else lookupKV l k := rfl

theorem eraseKV_nil {κ ν : Type} [DecidableEq κ] (k : κ) :
    eraseKV ([] : List (κ × ν)) k = [] := rfl

theorem eraseKV_cons {κ ν : Type} [DecidableEq κ] (e : κ × ν) (l : List (κ × ν)) (k : κ) :
    eraseKV (e :: l) k = if e.1 = k then eraseKV l k else e :: eraseKV l k := by
  by_cases h : e.1 = k
  · simp [eraseKV, List.filter_cons, h]
  · simp [eraseKV, List.filter_cons, h]

theorem keysOf_nil {κ ν : Type} : keysOf ([] : List (κ × ν)) = [] := rfl

theorem keysOf_cons {κ ν : Type} (e : κ × ν) (l : List (κ × ν)) :
    keysOf (e :: l) = e.1 :: keysOf l := rfl

theorem lookupKV_mem {κ ν : Type} [DecidableEq κ] {m : List (κ × ν)} {k : κ} {v : ν}
    (h : lookupKV m k = some v) : (k, v) ∈ m := by
  induction m with
  | nil => simp [lookupKV] at h
  | cons e l ih =>
    rw [lookupKV_cons] at h
    by_cases hk : e.1 = k
    · simp [hk] at h
      have he : e = (k, v) := Prod.ext hk h
      rw [← he]
      exact List.mem_cons_self e l
    · simp [hk] at h
      exact List.mem_cons_of_mem e (ih h)

theorem lookupKV_eq_none {κ ν : Type} [DecidableEq κ] {m : List (κ × ν)} {k : κ} :
    lookupKV m k = none ↔ k ∉ keysOf m := by
  induction m with
  | nil => simp [lookupKV, keysOf]
  | cons e l ih =>
    rw [lookupKV_cons, keysOf_cons]
    by_cases hk : e.1 = k
    · simp [hk]
    · rw [if_neg hk, ih]
      exact ⟨fun h hm => (List.mem_cons.mp hm).elim (fun h1 => hk h1.symm) h,
        fun h hm => h (List.mem_cons_of_mem _ hm)⟩

theorem lookupKV_isSome_iff {κ ν : Type} [DecidableEq κ] {m : List (κ × ν)} {k : κ} :
    (lookupKV m k).isSome = true ↔ k ∈ keysOf m := by
  rcases h : lookupKV m k with _ | v
  · simp [lookupKV_eq_none.mp h]
  · simp
    have hm := lookupKV_mem h
    exact List.mem_map.mpr ⟨(k, v), hm, rfl⟩

theorem containsKV_iff {κ ν : Type} [DecidableEq κ] {m : List (κ × ν)} {k : κ} :
    containsKV m k = true ↔ k ∈ keysOf m := by
  unfold containsKV
  exact lookupKV_isSome_iff

theorem mem_keysOf_of_mem {κ ν : Type} {m : List (κ × ν)} {e : κ × ν}
    (h : e ∈ m) : e.1 ∈ keysOf m :=
  List.mem_map.mpr ⟨e, h, rfl⟩

theorem mem_lookupKV_of_nodup {κ ν : Type} [DecidableEq κ] {m : List (κ × ν)} {k : κ} {v : ν}
    (hn : (keysOf m).Nodup) (h : (k, v) ∈ m) : lookupKV m k = some v := by
  induction m with
  | nil => simp at h
  | cons e l ih =>
    rw [keysOf_cons, List.nodup_cons] at hn
    rcases List.mem_cons.mp h with h1 | h1
    · rw [← h1, lookupKV_cons]
      simp
    · rw [lookupKV_cons]
      have hkl : k ∈ keysOf l := by
        have := mem_keysOf_of_mem h1
        simpa using this
      have hne : e.1 ≠ k := fun he => hn.1 (he ▸ hkl)
      simp [hne]
      exact ih hn.2 h1

theorem lookupKV_eraseKV_self {κ ν : Type} [DecidableEq κ] (m : List (κ × ν)) (k : κ) :
    lookupKV (eraseKV m k) k = none := by
  induction m with
  | nil => rfl
  | cons e l ih =>
    rw [eraseKV_cons]
    by_cases hk : e.1 = k
    · simp [hk]
      exact ih
    · simp [hk, lookupKV_cons]
      exact ih

theorem lookupKV_eraseKV_ne {κ ν : Type} [DecidableEq κ] (m : List (κ × ν)) {k k' : κ}
    (h : k' ≠ k) : lookupKV (eraseKV m k) k' = lookupKV m k' := by
  induction m with
  | nil => rfl
  | cons e l ih =>
    rw [eraseKV_cons, lookupKV_cons]
    by_cases hk : e.1 = k
    · have hne : e.1 ≠ k' := fun he => h ((he ▸ hk) : k' = k)
      rw [if_pos hk, if_neg hne]
      exact ih
    · rw [if_neg hk, lookupKV_cons]
      by_cases hk' : e.1 = k'
      · rw [if_pos hk', if_pos hk']
      · rw [if_neg hk', if_neg hk']
        exact ih

theorem mem_eraseKV {κ ν : Type} [DecidableEq κ] {m : List (κ × ν)} {k : κ} {e : κ × ν}
    (h : e ∈ eraseKV m k) : e ∈ m ∧ e.1 ≠ k := by
  unfold eraseKV at h
  refine ⟨List.mem_of_mem_filter h, ?_⟩
  have := List.of_mem_filter h
  simpa using this

theorem keysOf_eraseKV_sublist {κ ν : Type} [DecidableEq κ] (m : List (κ × ν)) (k : κ) :
    (keysOf (eraseKV m k)).Sublist (keysOf m) := by
  unfold eraseKV keysOf
  exact List.Sublist.map Prod.fst (List.filter_sublist m)

theorem keysOf_eraseKV_nodup {κ ν : Type} [DecidableEq κ] {m : List (κ × ν)} (k : κ)
    (hn : (keysOf m).Nodup) : (keysOf (eraseKV m k)).Nodup :=
  hn.sublist (keysOf_eraseKV_sublist m k)

theorem lookupKV_append {κ ν : Type} [DecidableEq κ] (m m' : List (κ × ν)) (k : κ) :
    lookupKV (m ++ m') k = ((lookupKV m k).or (lookupKV m' k)) := by
  induction m with
  | nil => rfl
  | cons e l ih =>
    rw [List.cons_append, lookupKV_cons, lookupKV_cons]
    by_cases hk : e.1 = k
    · simp [hk]
    · simp only [hk, if_false]
      exact ih

theorem lookupKV_singleton_self {κ ν : Type} [DecidableEq κ] (k : κ) (v : ν) :
    lookupKV [(k, v)] k = some v := by
  rw [lookupKV_cons]
  simp

theorem lookupKV_singleton_ne {κ ν : Type} [DecidableEq κ] {k k' : κ} (v : ν) (h : k' ≠ k) :
    lookupKV [(k, v)] k' = none := by
  rw [lookupKV_cons]
  have : ((k, v).1 = k') = False := by
    simp
    exact fun hh => h hh.symm
  simp [this, lookupKV_nil]

theorem lookupKV_replace_ne {κ ν : Type} [DecidableEq κ] (m : List (κ × ν)) (k : κ) (v : ν)
    {k' : κ} (h : k' ≠ k) :
    lookupKV (m.map (fun e => if e.1 = k then (k, v) else e)) k' = lookupKV m k' := by
  induction m with
  | nil => rfl
  | cons e l ih =>
    rw [List.map_cons, lookupKV_cons, lookupKV_cons]
    by_cases he : e.1 = k
    · simp only [he, if_true]
      have h1 : ((k, v) : κ × ν).1 ≠ k' := fun hh => h hh.symm
      rw [if_neg h1, if_neg (show ¬ k = k' from fun hh => h hh.symm)]
      exact ih
    · simp only [he, if_false]
      by_cases hek : e.1 = k'
      · rw [if_pos hek, if_pos hek]
      · rw [if_neg hek, if_neg hek]
        exact ih

theorem lookupKV_replace_self {κ ν : Type} [DecidableEq κ] {m : List (κ × ν)} (k : κ) (v : ν)
    (h : k ∈ keysOf m) :
    lookupKV (m.map (fun e => if e.1 = k then (k, v) else e)) k = some v := by
  induction m with
  | nil => simp [keysOf] at h
  | cons e l ih =>
    rw [List.map_cons, lookupKV_cons]
    by_cases he : e.1 = k
    · simp only [he, if_true]
    · simp only [he, if_false]
      rw [keysOf_cons, List.mem_cons] at h
      rcases h with h1 | h1
      · exact absurd h1.symm he
      · exact ih h1

theorem lookupKV_setKV_self {κ ν : Type} [DecidableEq κ] (m : List (κ × ν)) (k : κ) (v : ν) :
    lookupKV (setKV m k v) k = some v := by
  unfold setKV
  by_cases hc : containsKV m k
  · rw [if_pos hc]
    exact lookupKV_replace_self k v (containsKV_iff.mp hc)
  · rw [if_neg hc, lookupKV_append]
    rw [lookupKV_eq_none.mpr (fun hk => hc (containsKV_iff.mpr hk))]
    rw [lookupKV_singleton_self]
    rfl

theorem lookupKV_setKV_ne {κ ν : Type} [DecidableEq κ] (m : List (κ × ν)) {k k' : κ} (v : ν)
    (h : k' ≠ k) : lookupKV (setKV m k v) k' = lookupKV m k' := by
  unfold setKV
  by_cases hc : containsKV m k
  · rw [if_pos hc]
    exact lookupKV_replace_ne m k v h
  · rw [if_neg hc, lookupKV_append, lookupKV_singleton_ne v h]
    rcases lookupKV m k' with _ | w
    · rfl
    · rfl

theorem mem_setKV {κ ν : Type} [DecidableEq κ] {m : List (κ × ν)} {k : κ} {v : ν} {e : κ × ν}
    (h : e ∈ setKV m k v) : e ∈ m ∨ e = (k, v) := by
  unfold setKV at h
  by_cases hc : containsKV m k
  · rw [if_pos hc] at h
    rcases List.mem_map.mp h with ⟨e', he', heq⟩
    by_cases hk : e'.1 = k
    · rw [if_pos hk] at heq
      exact Or.inr heq.symm
    · rw [if_neg hk] at heq
      exact Or.inl (heq ▸ he')
  · rw [if_neg hc] at h
    rcases List.mem_append.mp h with h1 | h1
    · exact Or.inl h1
    · exact Or.inr (List.mem_singleton.mp h1)

theorem keysOf_setKV {κ ν : Type} [DecidableEq κ] (m : List (κ × ν)) (k : κ) (v : ν) :
    keysOf (setKV m k v) = if containsKV m k then keysOf m else keysOf m ++ [k] := by
  unfold setKV
  by_cases hc : containsKV m k
  · rw [if_pos hc, if_pos hc]
    unfold keysOf
    rw [List.map_map]
    apply List.map_congr_left
    intro e _
    by_cases he : e.1 = k
    · simp [he]
    · simp [he]
  · rw [if_neg hc, if_neg hc]
    unfold keysOf
    rw [List.map_append]
    rfl

theorem keysOf_setKV_nodup {κ ν : Type} [DecidableEq κ] {m : List (κ × ν)} (k : κ) (v : ν)
    (hn : (keysOf m).Nodup) : (keysOf (setKV m k v)).Nodup := by
  rw [keysOf_setKV]
  by_cases hc : containsKV m k
  · rw [if_pos hc]
    exact hn
  · rw [if_neg hc]
    rw [List.nodup_append]
    refine ⟨hn, List.nodup_singleton k, ?_⟩
    intro a ha hb
    rw [List.mem_singleton] at hb
    rw [hb] at ha
    exact hc (containsKV_iff.mpr ha)

theorem containsKV_setKV_self {κ ν : Type} [DecidableEq κ] (m : List (κ × ν)) (k : κ) (v : ν) :
    containsKV (setKV m k v) k = true := by
  unfold containsKV
  rw [lookupKV_setKV_self]
  rfl

theorem containsKV_setKV_of {κ ν : Type} [DecidableEq κ] {m : List (κ × ν)} {k' : κ} (k : κ)
    (v : ν) (h : containsKV m k' = true) : containsKV (setKV m k v) k' = true := by
  by_cases hk : k' = k
  · rw [hk]
    exact containsKV_setKV_self m k v
  · unfold containsKV at h ⊢
    rw [lookupKV_setKV_ne m v hk]
    exact h

theorem lookup0_incrKV_self {κ : Type} [DecidableEq κ] (m : List (κ × Nat)) (k : κ) :
    lookup0 (incrKV m k) k = lookup0 m k + 1 := by
  unfold incrKV lookup0
  rw [lookupKV_setKV_self]
  rfl

theorem lookup0_incrKV_ne {κ : Type} [DecidableEq κ] (m : List (κ × Nat)) {k k' : κ}
    (h : k' ≠ k) : lookup0 (incrKV m k) k' = lookup0 m k' := by
  unfold incrKV lookup0
  rw [lookupKV_setKV_ne m _ h]

theorem keysOf_incrKV_nodup {κ : Type} [DecidableEq κ] {m : List (κ × Nat)} (k : κ)
    (hn : (keysOf m).Nodup) : (keysOf (incrKV m k)).Nodup :=
  keysOf_setKV_nodup k _ hn

theorem containsKV_incrKV {κ : Type} [DecidableEq κ] (m : List (κ × Nat)) (k k' : κ) :
    containsKV (incrKV m k) k' = true ↔ (containsKV m k' = true ∨ k' = k) := by
  unfold incrKV
  constructor
  · intro h
    by_cases hk : k' = k
    · exact Or.inr hk
    · left
      unfold containsKV at h ⊢
      rwa [lookupKV_setKV_ne m _ hk] at h
  · intro h
    rcases h with h | h
    · exact containsKV_setKV_of k _ h
    · rw [h]
      exact containsKV_setKV_self m k _

/- updateAgenda lemmas. -/

theorem updateAgenda_of_none {ag : AgendaT} {st : Nat} (h : Hypothesis)
    (hl : lookupKV ag st = none) : updateAgenda ag st h = ag ++ [(st, h)] := by
  unfold updateAgenda
  rw [hl]

theorem updateAgenda_of_some {ag : AgendaT} {st : Nat} (h : Hypothesis) {old : Hypothesis}
    (hl : lookupKV ag st = some old) :
    updateAgenda ag st h = if old.cost > h.cost then setKV ag st h else ag := by
  unfold updateAgenda
  rw [hl]

theorem lookupKV_updateAgenda_ne (ag : AgendaT) {st k : Nat} (h : Hypothesis)
    (hne : k ≠ st) : lookupKV (updateAgenda ag st h) k = lookupKV ag k := by
  rcases hl : lookupKV ag st with _ | old
  · rw [updateAgenda_of_none h hl, lookupKV_append, lookupKV_singleton_ne h hne]
    rcases lookupKV ag k with _ | w
    · rfl
    · rfl
  · rw [updateAgenda_of_some h hl]
    by_cases hc : old.cost > h.cost
    · rw [if_pos hc]
      exact lookupKV_setKV_ne ag h hne
    · rw [if_neg hc]

theorem lookupKV_updateAgenda_self (ag : AgendaT) (st : Nat) (h : Hypothesis) :
    ∃ h2, lookupKV (updateAgenda ag st h) st = some h2 ∧ h2.cost ≤ h.cost ∧
      (h2 = h ∨ lookupKV ag st = some h2) := by
  rcases hl : lookupKV ag st with _ | old
  · refine ⟨h, ?_, le_refl _, Or.inl rfl⟩
    rw [updateAgenda_of_none h hl, lookupKV_append, hl, lookupKV_singleton_self]
    rfl
  · rw [updateAgenda_of_some h hl]
    by_cases hc : old.cost > h.cost
    · rw [if_pos hc]
      exact ⟨h, lookupKV_setKV_self ag st h, le_refl _, Or.inl rfl⟩
    · rw [if_neg hc]
      push_neg at hc
      exact ⟨old, hl, hc, Or.inr rfl⟩

theorem lookupKV_updateAgenda_mono (ag : AgendaT) (st : Nat) (h : Hypothesis) {old : Hypothesis}
    (hl : lookupKV ag st = some old) :
    ∃ h2, lookupKV (updateAgenda ag st h) st = some h2 ∧ h2.cost ≤ old.cost ∧
      (h2 = old ∨ h2 = h) := by
  rw [updateAgenda_of_some h hl]
  by_cases hc : old.cost > h.cost
  · rw [if_pos hc]
    exact ⟨h, lookupKV_setKV_self ag st h, le_of_lt hc, Or.inr rfl⟩
  · rw [if_neg hc]
    exact ⟨old, hl, le_refl _, Or.inl rfl⟩

theorem mem_updateAgenda {ag : AgendaT} {st : Nat} {h : Hypothesis} {e : Nat × Hypothesis}
    (hm : e ∈ updateAgenda ag st h) : e ∈ ag ∨ e = (st, h) := by
  rcases hl : lookupKV ag st with _ | old
  · rw [updateAgenda_of_none h hl] at hm
    rcases List.mem_append.mp hm with h1 | h1
    · exact Or.inl h1
    · exact Or.inr (List.mem_singleton.mp h1)
  · rw [updateAgenda_of_some h hl] at hm
    by_cases hc : old.cost > h.cost
    · rw [if_pos hc] at hm
      exact mem_setKV hm
    · rw [if_neg hc] at hm
      exact Or.inl hm

theorem keysOf_updateAgenda_nodup {ag : AgendaT} (st : Nat) (h : Hypothesis)
    (hn : (keysOf ag).Nodup) : (keysOf (updateAgenda ag st h)).Nodup := by
  rcases hl : lookupKV ag st with _ | old
  · rw [updateAgenda_of_none h hl]
    unfold keysOf
    rw [List.map_append]
    rw [List.nodup_append]
    refine ⟨hn, List.nodup_singleton st, ?_⟩
    intro a ha hb
    simp at hb
    rw [hb] at ha
    exact (lookupKV_eq_none.mp hl) ha
  · rw [updateAgenda_of_some h hl]
    by_cases hc : old.cost > h.cost
    · rw [if_pos hc]
      exact keysOf_setKV_nodup st h hn
    · rw [if_neg hc]
      exact hn

/- minHyp lemmas. -/

theorem minHyp_cons_none {e : Nat × Hypothesis} {l : AgendaT} (hml : minHyp l = none) :
    minHyp (e :: l) = some e.2 := by
  unfold minHyp
  rw [hml]

theorem minHyp_cons_some {e : Nat × Hypothesis} {l : AgendaT} {m : Hypothesis}
    (hml : minHyp l = some m) :
    minHyp (e :: l) = if m.cost < e.2.cost then some m else some e.2 := by
  unfold minHyp
  rw [hml]

theorem minHyp_none {A : AgendaT} (hm : minHyp A = none) : A = [] := by
  cases A with
  | nil => rfl
  | cons e l =>
    exfalso
    rcases hr : minHyp l with _ | m
    · rw [minHyp_cons_none hr] at hm
      exact Option.noConfusion hm
    · rw [minHyp_cons_some hr] at hm
      by_cases hc : m.cost < e.2.cost
      · rw [if_pos hc] at hm
        exact Option.noConfusion hm
      · rw [if_neg hc] at hm
        exact Option.noConfusion hm

theorem minHyp_mem {A : AgendaT} {h : Hypothesis} (hm : minHyp A = some h) :
    ∃ st, (st, h) ∈ A := by
  induction A with
  | nil => exact Option.noConfusion hm
  | cons e l ih =>
    rcases hr : minHyp l with _ | m
    · rw [minHyp_cons_none hr] at hm
      have he : e.2 = h := Option.some.inj hm
      exact ⟨e.1, by rw [← he]; exact List.mem_cons_self e l⟩
    · rw [minHyp_cons_some hr] at hm
      by_cases hc : m.cost < e.2.cost
      · rw [if_pos hc] at hm
        have he : m = h := Option.some.inj hm
        rw [he] at hr
        rcases ih hr with ⟨st, hst⟩
        exact ⟨st, List.mem_cons_of_mem e hst⟩
      · rw [if_neg hc] at hm
        have he : e.2 = h := Option.some.inj hm
        exact ⟨e.1, by rw [← he]; exact List.mem_cons_self e l⟩

theorem minHyp_le {A : AgendaT} :
    ∀ {h : Hypothesis}, minHyp A = some h → ∀ e ∈ A, h.cost ≤ e.2.cost := by
  induction A with
  | nil => exact fun hm => Option.noConfusion hm
  | cons e l ih =>
    intro h hm e' he'
    rcases hr : minHyp l with _ | m
    · rw [minHyp_cons_none hr] at hm
      have hl0 : l = [] := minHyp_none hr
      have he : e.2 = h := Option.some.inj hm
      subst hl0
      rcases List.mem_cons.mp he' with h1 | h1
      · rw [← he, h1]
      · exact absurd h1 (List.not_mem_nil e')
    · rw [minHyp_cons_some hr] at hm
      by_cases hc : m.cost < e.2.cost
      · rw [if_pos hc] at hm
        have he : m = h := Option.some.inj hm
        subst he
        rcases List.mem_cons.mp he' with h1 | h1
        · rw [h1]
          exact le_of_lt hc
        · exact ih hr e' h1
      · rw [if_neg hc] at hm
        have he : e.2 = h := Option.some.inj hm
        push_neg at hc
        rcases List.mem_cons.mp he' with h1 | h1
        · rw [← he, h1]
        · rw [← he]
          exact le_trans hc (ih hr e' h1)


/- Easy pipeline lemmas and simple claims. -/

theorem make_rows_go_rank_ge (tie : List Bool) :
    ∀ (rest : List String) (i last : Nat), 1 ≤ last →
      ∀ row ∈ make_rows_go tie i last rest, 1 ≤ row.rank := by
  intro rest
  induction rest with
  | nil =>
    intro i last _ row hrow
    exact absurd hrow (List.not_mem_nil row)
  | cons sys l ih =>
    intro i last hlast row hrow
    unfold make_rows_go at hrow
    have hr1 : 1 ≤ (if tie.getD i false then last else i + 1) := by
      by_cases ht : tie.getD i false = true
      · rw [if_pos ht]
        exact hlast
      · rw [if_neg ht]
        exact Nat.succ_le_succ (Nat.zero_le i)
    rcases List.mem_cons.mp hrow with h1 | h1
    · rw [h1]
      exact hr1
    · exact ih (i + 1) _ hr1 row h1

theorem mark_ties_getD_zero (r : List String) (edges : EMap) :
    (mark_ties r edges).getD 0 false = false := by
  cases r with
  | nil => rfl
  | cons a l =>
    unfold mark_ties
    rw [List.length_cons, List.range_succ_eq_map, List.map_cons]
    simp

/-- C10: for every ranking list and edge map, the tie vector from the tie
marker is False at position 0, so the row builder gives the first emitted
row rank 1 and every emitted rank is at least 1. -/
theorem tie_marker_first_false_ranks_positive (r : List String) (edges : EMap) :
    (mark_ties r edges).getD 0 false = false ∧
    (∀ row ∈ make_rows r (mark_ties r edges), 1 ≤ row.rank) ∧
    (∀ row0, (make_rows r (mark_ties r edges)).head? = some row0 → row0.rank = 1) := by
  refine ⟨mark_ties_getD_zero r edges, ?_, ?_⟩
  · intro row hrow
    cases r with
    | nil => exact absurd hrow (List.not_mem_nil row)
    | cons a l =>
      unfold make_rows make_rows_go at hrow
      rw [mark_ties_getD_zero (a :: l) edges] at hrow
      rw [if_neg (by decide : ¬ (false = true))] at hrow
      rcases List.mem_cons.mp hrow with h1 | h1
      · rw [h1]
      · exact make_rows_go_rank_ge (mark_ties (a :: l) edges) l 1 (0 + 1)
          (le_refl 1) row h1
  · intro row0 hrow0
    cases r with
    | nil => exact Option.noConfusion hrow0
    | cons a l =>
      unfold make_rows make_rows_go at hrow0
      rw [mark_ties_getD_zero (a :: l) edges] at hrow0
      rw [if_neg (by decide : ¬ (false = true)), List.head?_cons] at hrow0
      have heq := Option.some.inj hrow0
      rw [← heq]

/-- C10 witness: concrete instance discharging the hypotheses of
tie_marker_first_false_ranks_positive. -/
theorem tie_marker_first_false_ranks_positive_witness :
    1 ≤ (RankRow.mk none ("B") 2).rank ∧ (RankRow.mk none ("A") 1).rank = 1 :=
  ⟨(tie_marker_first_false_ranks_positive ["A", "B"] []).2.1 (RankRow.mk none ("B") 2)
      (by decide),
    (tie_marker_first_false_ranks_positive ["A", "B"] []).2.2 (RankRow.mk none ("A") 1)
      (by decide)⟩

/-- C9: construction succeeds exactly for the outcome symbols <, > and =;
any other symbol is the fatal error that aborts processing of the
record's file. -/
theorem rank_to_int_valid_symbols (s : String) :
    ((∃ v, rank_to_int s = Except.ok v) ↔ (s = "<" ∨ s = ">" ∨ s = "=")) ∧
    (∀ (sid : Int) (s1 s2 : String) (rest : List (Int × String × String × String)),
      ¬(s = "<" ∨ s = ">" ∨ s = "=") →
      parseRecords ((sid, s1, s2, s) :: rest) = Except.error ("Invalid ranking: " ++ s)) := by
  constructor
  · constructor
    · intro hv
      rcases hv with ⟨v, hv⟩
      by_cases h1 : s = "<"
      · exact Or.inl h1
      by_cases h2 : s = ">"
      · exact Or.inr (Or.inl h2)
      by_cases h3 : s = "="
      · exact Or.inr (Or.inr h3)
      · unfold rank_to_int at hv
        rw [if_neg h1, if_neg h2, if_neg h3] at hv
        exact Except.noConfusion hv
    · intro h
      rcases h with h | h | h <;> subst h
      · exact ⟨-1, rfl⟩
      · exact ⟨1, rfl⟩
      · exact ⟨0, rfl⟩
  · intro sid s1 s2 rest h
    push_neg at h
    unfold parseRecords mkRanking rank_to_int
    rw [if_neg h.1, if_neg h.2.1, if_neg h.2.2]

/-- C9 witness: a concrete bad symbol aborts the file. -/
theorem rank_to_int_valid_symbols_witness :
    parseRecords [((0 : Int), "x", "y", "?")] = Except.error ("Invalid ranking: " ++ "?") :=
  (rank_to_int_valid_symbols ("?")).2 0 ("x") ("y") [] (by decide)

/-- C1 counterexample: in spec scenario 2 (A=B four times, A>B once) the
equality resolver removes every directed edge, the absent edge does NOT
mark a tie, and the emitted ranks are [1, 2], not [1, 1]. -/
theorem scenario_two_ranks_counterexample :
    (sort_tgts 99 scenarioRl).map (fun rows => rows.map RankRow.rank) = some [1, 2] ∧
    ((some [1, 2] : Option (List Nat)) ≠ some [1, 1]) := by
  constructor
  · decide
  · decide

/-- C1 (amended): the tie marker flags position i as tied with i-1 iff
the edge map it inspects contains the directed edge
(order[i-1], order[i]) with stored weight exactly 0; an absent edge, or
an edge in the opposite direction only, never marks a tie. -/
theorem mark_ties_iff (r : List String) (edges : EMap) (i : Nat) (hi : i < r.length) :
    ((mark_ties r edges).getD i false = true ↔
      (1 ≤ i ∧ lookupKV edges (r.getD (i - 1) blankId, r.getD i blankId) = some 0)) := by
  unfold mark_ties
  have hlen : i < ((List.range r.length).map (fun j =>
      if j = 0 then false
      else
        match lookupKV edges (r.getD (j - 1) blankId, r.getD j blankId) with
        | some w => w == 0
        | none => false)).length := by
    rw [List.length_map, List.length_range]
    exact hi
  rw [List.getD_eq_getElem _ _ hlen]
  rw [List.getElem_map]
  rw [List.getElem_range]
  by_cases h0 : i = 0
  · subst h0
    simp
  · rw [if_neg h0]
    rcases hl : lookupKV edges (r.getD (i - 1) blankId, r.getD i blankId) with _ | w
    · constructor
      · intro hfalse
        exact absurd (hfalse : false = true) (by decide)
      · intro hand
        exact Option.noConfusion hand.2
    · constructor
      · intro hw
        have hw' : (w == 0) = true := hw
        have hw0 : w = 0 := eq_of_beq hw'
        exact ⟨Nat.one_le_iff_ne_zero.mpr h0, by rw [hw0]⟩
      · intro hand
        have hw0 : w = 0 := Option.some.inj hand.2
        subst hw0
        rfl

/-- C1 witness: a present zero-weight edge does mark position 1 tied. -/
theorem mark_ties_iff_witness :
    1 < (["A", "B"] : List String).length ∧
    ((mark_ties ["A", "B"] [(("A", "B"), 0)]).getD 1 false = true ↔
      (1 ≤ 1 ∧ lookupKV [(("A", "B"), 0)]
        ((["A", "B"] : List String).getD 0 blankId,
          (["A", "B"] : List String).getD 1 blankId) = some 0)) :=
  ⟨by decide, mark_ties_iff ["A", "B"] [(("A", "B"), 0)] 1 (by decide)⟩

/-- C2 counterexample: on the tournament with the single edge (A, B) of
weight 1 over vertices [A, B], the search places B first and A second,
but the returned ranking is [A, B]: the returned list is not the
placement order. -/
theorem ranking_not_placement_counterexample :
    (lopezGoalHyp exE exV 9).map Hypothesis.ranking = some ["A", "B"] ∧
    (lopezGoalHyp exE exV 9).map Hypothesis.placement = some ["B", "A"] ∧
    (some ["A", "B"] : Option (List String)) ≠ some ["B", "A"] := by
  refine ⟨by decide, by decide, by decide⟩

/-- C3 counterexample: given a tournament edge (C, A) whose tail C is not
in the vertex set [A, B], the solver completes normally (no failure) and
returns exactly what it returns with no edges at all. -/
theorem solver_no_error_on_foreign_edge :
    run_lopez_mfas_solver strayE exV 9 = some ["B", "A"] ∧
    run_lopez_mfas_solver [] exV 9 = some ["B", "A"] := by
  constructor
  · decide
  · decide

/-- C5: the code's own completeness assertion fails on an empty-string
vertex id: backtracking stops at the falsy empty-string vertex, the
returned ranking omits it, and the sanity assertion of sort_tgts
fires (modelled as none). -/
theorem solver_drops_empty_vertex_id :
    run_lopez_mfas_solver emptyIdE emptyIdV 9 = some ["A"] ∧
    (["A"] : List String).length ≠ emptyIdV.length ∧
    sort_tgts 99 emptyIdRl = none := by
  refine ⟨by decide, by decide, by decide⟩

/- Membership facts about uncovered. -/

theorem mem_uncovered {n state i : Nat} :
    i ∈ uncovered n state ↔ (i < n ∧ state.testBit i = false) := by
  unfold uncovered
  rw [List.mem_filter, List.mem_range]
  constructor
  · intro h
    refine ⟨h.1, ?_⟩
    have := h.2
    simpa using this
  · intro h
    refine ⟨h.1, ?_⟩
    simpa using h.2

theorem getD_mem_of_lt {V : List String} {i : Nat} (h : i < V.length) :
    V.getD i blankId ∈ V := by
  rw [List.getD_eq_getElem _ _ h]
  exact List.getElem_mem h

theorem addedCost_congr {E1 E2 : EMap} {V : List String} {uId : String} (ns : Nat)
    (hu : uId ∈ V)
    (hE : ∀ a b : String, a ∈ V → b ∈ V → lookup0 E1 (a, b) = lookup0 E2 (a, b)) :
    addedCost E1 V uId ns = addedCost E2 V uId ns := by
  unfold addedCost
  congr 1
  apply List.map_congr_left
  intro v hv
  have hvn : v < V.length := (mem_uncovered.mp hv).1
  exact hE uId (V.getD v blankId) hu (getD_mem_of_lt hvn)

theorem foldl_congr_fn {α β : Type} {f g : β → α → β} {l : List α}
    (h : ∀ b, ∀ a ∈ l, f b a = g b a) : ∀ b, l.foldl f b = l.foldl g b := by
  induction l with
  | nil => intro b; rfl
  | cons x xs ih =>
    intro b
    rw [List.foldl_cons, List.foldl_cons, h b x (List.mem_cons_self x xs)]
    exact ih (fun b a ha => h b a (List.mem_cons_of_mem x ha)) (g b x)

theorem lopezLoop_succ_unfold (E : EMap) (V : List String) (fuel : Nat) (ag : AgendaT) :
    lopezLoop E V (fuel + 1) ag =
      match minHyp ag with
      | none => none
      | some h =>
        if h.state = goalState V.length then some h
        else lopezLoop E V fuel (expandHyp E V h (eraseKV ag h.state)) := rfl

theorem lopezLoop_succ_none {E : EMap} {V : List String} (fuel : Nat) {ag : AgendaT}
    (hm : minHyp ag = none) : lopezLoop E V (fuel + 1) ag = none := by
  rw [lopezLoop_succ_unfold, hm]

theorem lopezLoop_succ_some {E : EMap} {V : List String} (fuel : Nat) {ag : AgendaT}
    {h : Hypothesis} (hm : minHyp ag = some h) :
    lopezLoop E V (fuel + 1) ag =
      if h.state = goalState V.length then some h
      else lopezLoop E V fuel (expandHyp E V h (eraseKV ag h.state)) := by
  rw [lopezLoop_succ_unfold, hm]

theorem expandHyp_congr {E1 E2 : EMap} {V : List String} (h : Hypothesis) (ag : AgendaT)
    (hE : ∀ a b : String, a ∈ V → b ∈ V → lookup0 E1 (a, b) = lookup0 E2 (a, b)) :
    expandHyp E1 V h ag = expandHyp E2 V h ag := by
  unfold expandHyp
  apply foldl_congr_fn
  intro acc u hu
  have hun : u < V.length := (mem_uncovered.mp hu).1
  unfold expandStep
  rw [addedCost_congr (childState h.state u) (getD_mem_of_lt hun) hE]

theorem lopezLoop_congr {E1 E2 : EMap} {V : List String}
    (hE : ∀ a b : String, a ∈ V → b ∈ V → lookup0 E1 (a, b) = lookup0 E2 (a, b)) :
    ∀ (fuel : Nat) (ag : AgendaT), lopezLoop E1 V fuel ag = lopezLoop E2 V fuel ag := by
  intro fuel
  induction fuel with
  | zero => intro ag; rfl
  | succ fuel ih =>
    intro ag
    rcases hm : minHyp ag with _ | h
    · rw [lopezLoop_succ_none fuel hm, lopezLoop_succ_none fuel hm]
    · rw [lopezLoop_succ_some fuel hm, lopezLoop_succ_some fuel hm]
      by_cases hg : h.state = goalState V.length
      · rw [if_pos hg, if_pos hg]
      · rw [if_neg hg, if_neg hg]
        rw [expandHyp_congr h (eraseKV ag h.state) hE]
        exact ih (expandHyp E2 V h (eraseKV ag h.state))

/-- C3 (amended): the solver never validates edge endpoints; two edge
maps that agree on ordered pairs of vertices drawn from V drive the
search identically, so an edge mentioning a vertex outside V is silently
ignored and the solver completes normally rather than failing. -/
theorem run_lopez_ignores_foreign_edges (E1 E2 : EMap) (V : List String) (fuel : Nat)
    (hE : ∀ a b : String, a ∈ V → b ∈ V → lookup0 E1 (a, b) = lookup0 E2 (a, b)) :
    run_lopez_mfas_solver E1 V fuel = run_lopez_mfas_solver E2 V fuel := by
  unfold run_lopez_mfas_solver lopezGoalHyp
  rw [lopezLoop_congr hE fuel [(0, Hypothesis.init)]]

/-- C3 witness: the tournament containing only the foreign edge (C, A)
behaves exactly like the empty tournament on vertices [A, B]. -/
theorem run_lopez_ignores_foreign_edges_witness :
    run_lopez_mfas_solver strayE exV 9 = run_lopez_mfas_solver [] exV 9 :=
  run_lopez_ignores_foreign_edges strayE [] exV 9 (by
    intro a b ha hb
    have ha' : a = "A" ∨ a = "B" := by simpa [exV] using ha
    have hb' : b = "A" ∨ b = "B" := by simpa [exV] using hb
    rcases ha' with rfl | rfl <;> rcases hb' with rfl | rfl <;> decide)

/- Reducer claims. -/

theorem prod_eta_pair {α β : Type} (e : α × β) : (e.1, e.2) = e := rfl

theorem reduceEdges_go (t : EMap) (hn : (keysOf t).Nodup)
    (hone : ∀ a b : String, containsKV t (a, b) = true → containsKV t (b, a) = false) :
    ∀ (l2 l1 : EMap), t = l1 ++ l2 → List.foldl (reduceStep t) l1 l2 = l1 ++ l2 := by
  intro l2
  induction l2 with
  | nil =>
    intro l1 _
    rw [List.foldl_nil, List.append_nil]
  | cons e l2 ih =>
    intro l1 ht
    rw [List.foldl_cons]
    have hmem : e ∈ t := by
      rw [ht]
      exact List.mem_append_right l1 (List.mem_cons_self e l2)
    have hcont : containsKV t (e.1.1, e.1.2) = true := by
      rw [prod_eta_pair e.1]
      exact containsKV_iff.mpr (mem_keysOf_of_mem hmem)
    have hrev : containsKV t (e.1.2, e.1.1) = false := hone e.1.1 e.1.2 hcont
    have hstep : reduceStep t l1 e = l1 ++ [e] := by
      unfold reduceStep
      rw [if_neg (by rw [hrev]; exact Bool.false_ne_true)]
      have hl : lookupKV t e.1 = some e.2 := mem_lookupKV_of_nodup hn (by
        rw [prod_eta_pair e]
        exact hmem)
      have hl0 : lookup0 t (e.1.1, e.1.2) = e.2 := by
        unfold lookup0
        rw [prod_eta_pair e.1, hl]
        rfl
      have hnc : containsKV l1 (e.1.1, e.1.2) = false := by
        rcases hc : containsKV l1 (e.1.1, e.1.2) with _ | _
        · rfl
        · exfalso
          have hk : (e.1.1, e.1.2) ∈ keysOf l1 := containsKV_iff.mp hc
          rw [prod_eta_pair e.1] at hk
          have : keysOf t = keysOf l1 ++ e.1 :: keysOf l2 := by
            rw [ht]
            unfold keysOf
            rw [List.map_append, List.map_cons]
          rw [this] at hn
          rcases List.nodup_append.mp hn with ⟨_, hn2, hdisj⟩
          exact hdisj hk (List.mem_cons_self e.1 (keysOf l2))
      unfold setKV
      rw [if_neg (by rw [hnc]; exact Bool.false_ne_true), hl0, prod_eta_pair e.1,
        prod_eta_pair e]
    rw [hstep]
    have := ih (l1 ++ [e]) (by rw [ht, List.append_assoc]; rfl)
    rw [this, List.append_assoc]
    rfl

/-- C8: the Tournament Reducer is idempotent: on an edge set that is
already reduced (at most one direction per unordered pair, all weights
strictly positive), the reduction step returns exactly the same edge
set, every edge and weight unchanged. -/
theorem reduceEdges_idempotent (t : EMap) (hn : (keysOf t).Nodup)
    (hone : ∀ a b : String, containsKV t (a, b) = true → containsKV t (b, a) = false)
    (_hpos : ∀ e ∈ t, 0 < e.2) : reduceEdges t = t := by
  unfold reduceEdges
  have := reduceEdges_go t hn hone t [] rfl
  rw [this]
  rfl

/-- C8 witness: a concrete already-reduced edge set is returned
unchanged. -/
theorem reduceEdges_idempotent_witness :
    reduceEdges [(("A", "B"), 2), (("C", "B"), 1)] = [(("A", "B"), 2), (("C", "B"), 1)] :=
  reduceEdges_idempotent [(("A", "B"), 2), (("C", "B"), 1)] (by decide)
    (by
      intro a b h
      have hk : (a, b) ∈ keysOf [(("A", "B"), 2), (("C", "B"), 1)] := containsKV_iff.mp h
      have hor : (a, b) = ("A", "B") ∨ (a, b) = ("C", "B") := by simpa [keysOf] using hk
      rcases hor with h1 | h1
      · have ha : a = "A" := congrArg Prod.fst h1
        have hb : b = "B" := congrArg Prod.snd h1
        subst ha
        subst hb
        decide
      · have ha : a = "C" := congrArg Prod.fst h1
        have hb : b = "B" := congrArg Prod.snd h1
        subst ha
        subst hb
        decide)
    (by decide)

theorem lookup0_pos_of_contains {di : EMap} {k : String × String}
    (hpos : ∀ e ∈ di, 0 < e.2) (hc : containsKV di k = true) : 0 < lookup0 di k := by
  unfold containsKV at hc
  rcases hl : lookupKV di k with _ | v
  · rw [hl] at hc
    exact absurd hc (by decide)
  · have hv := hpos (k, v) (lookupKV_mem hl)
    unfold lookup0
    rw [hl]
    exact hv

theorem lookup0_eq_zero_of_not_contains {di : EMap} {k : String × String}
    (hc : containsKV di k = false) : lookup0 di k = 0 := by
  unfold containsKV at hc
  rcases hl : lookupKV di k with _ | v
  · unfold lookup0
    rw [hl]
    rfl
  · rw [hl] at hc
    simp at hc

theorem containsKV_reduceStep_mono {di acc : EMap} {e : (String × String) × Nat}
    {k : String × String} (hc : containsKV acc k = true) :
    containsKV (reduceStep di acc e) k = true := by
  unfold reduceStep
  by_cases h1 : containsKV di (e.1.2, e.1.1) = true
  · rw [if_pos h1]
    by_cases h2 : lookup0 di (e.1.1, e.1.2) > lookup0 di (e.1.2, e.1.1)
    · rw [if_pos h2]
      exact containsKV_setKV_of _ _ hc
    · rw [if_neg h2]
      by_cases h3 : lookup0 di (e.1.2, e.1.1) > lookup0 di (e.1.1, e.1.2)
      · rw [if_pos h3]
        exact containsKV_setKV_of _ _ hc
      · rw [if_neg h3]
        exact hc
  · rw [if_neg h1]
    exact containsKV_setKV_of _ _ hc

theorem reduceEdges_fold_good (di : EMap) (hpos : ∀ e ∈ di, 0 < e.2) :
    ∀ (l acc : EMap), (∀ e ∈ l, e ∈ di) →
      (∀ k w, lookupKV acc k = some w → containsKV di k = true ∧
        lookup0 di (k.2, k.1) < lookup0 di k ∧ w = lookup0 di k - lookup0 di (k.2, k.1)) →
      ∀ k w, lookupKV (List.foldl (reduceStep di) acc l) k = some w →
        containsKV di k = true ∧ lookup0 di (k.2, k.1) < lookup0 di k ∧
        w = lookup0 di k - lookup0 di (k.2, k.1) := by
  intro l
  induction l with
  | nil =>
    intro acc _ hacc k w hl
    exact hacc k w hl
  | cons e l ih =>
    intro acc hsub hacc k w hl
    rw [List.foldl_cons] at hl
    refine ih (reduceStep di acc e) (fun x hx => hsub x (List.mem_cons_of_mem e hx)) ?_ k w hl
    intro k' w' hl'
    have hedi : e ∈ di := hsub e (List.mem_cons_self e l)
    have habc : containsKV di (e.1.1, e.1.2) = true := by
      rw [prod_eta_pair e.1]
      exact containsKV_iff.mpr (mem_keysOf_of_mem hedi)
    unfold reduceStep at hl'
    by_cases h1 : containsKV di (e.1.2, e.1.1) = true
    · rw [if_pos h1] at hl'
      by_cases h2 : lookup0 di (e.1.1, e.1.2) > lookup0 di (e.1.2, e.1.1)
      · rw [if_pos h2] at hl'
        by_cases hk : k' = (e.1.1, e.1.2)
        · subst hk
          rw [lookupKV_setKV_self] at hl'
          have hw := Option.some.inj hl'
          exact ⟨habc, h2, hw.symm⟩
        · rw [lookupKV_setKV_ne acc _ hk] at hl'
          exact hacc k' w' hl'
      · rw [if_neg h2] at hl'
        by_cases h3 : lookup0 di (e.1.2, e.1.1) > lookup0 di (e.1.1, e.1.2)
        · rw [if_pos h3] at hl'
          by_cases hk : k' = (e.1.2, e.1.1)
          · subst hk
            rw [lookupKV_setKV_self] at hl'
            have hw := Option.some.inj hl'
            exact ⟨h1, h3, hw.symm⟩
          · rw [lookupKV_setKV_ne acc _ hk] at hl'
            exact hacc k' w' hl'
        · rw [if_neg h3] at hl'
          exact hacc k' w' hl'
    · rw [if_neg h1] at hl'
      by_cases hk : k' = (e.1.1, e.1.2)
      · subst hk
        rw [lookupKV_setKV_self] at hl'
        have hw := Option.some.inj hl'
        have hz : lookup0 di (e.1.2, e.1.1) = 0 := by
          apply lookup0_eq_zero_of_not_contains
          rcases hcc : containsKV di (e.1.2, e.1.1) with _ | _
          · rfl
          · exact absurd hcc h1
        have hp : 0 < lookup0 di (e.1.1, e.1.2) := lookup0_pos_of_contains hpos habc
        refine ⟨habc, ?_, ?_⟩
        · rw [hz]
          exact hp
        · rw [hz, hw.symm, Nat.sub_zero]
      · rw [lookupKV_setKV_ne acc _ hk] at hl'
        exact hacc k' w' hl'

theorem reduceEdges_good (di : EMap) (hpos : ∀ e ∈ di, 0 < e.2) :
    ∀ k w, lookupKV (reduceEdges di) k = some w → containsKV di k = true ∧
      lookup0 di (k.2, k.1) < lookup0 di k ∧ w = lookup0 di k - lookup0 di (k.2, k.1) := by
  unfold reduceEdges
  exact reduceEdges_fold_good di hpos di [] (fun e he => he)
    (fun k w hl => absurd hl (by rw [lookupKV_nil]; exact fun h => Option.noConfusion h))

theorem reduceEdges_fold_keys_nodup (di : EMap) :
    ∀ (l acc : EMap), (keysOf acc).Nodup →
      (keysOf (List.foldl (reduceStep di) acc l)).Nodup := by
  intro l
  induction l with
  | nil =>
    intro acc h
    exact h
  | cons e l ih =>
    intro acc h
    rw [List.foldl_cons]
    refine ih (reduceStep di acc e) ?_
    unfold reduceStep
    by_cases h1 : containsKV di (e.1.2, e.1.1) = true
    · rw [if_pos h1]
      by_cases h2 : lookup0 di (e.1.1, e.1.2) > lookup0 di (e.1.2, e.1.1)
      · rw [if_pos h2]
        exact keysOf_setKV_nodup _ _ h
      · rw [if_neg h2]
        by_cases h3 : lookup0 di (e.1.2, e.1.1) > lookup0 di (e.1.1, e.1.2)
        · rw [if_pos h3]
          exact keysOf_setKV_nodup _ _ h
        · rw [if_neg h3]
          exact h
    · rw [if_neg h1]
      exact keysOf_setKV_nodup _ _ h

theorem reduceEdges_fold_mem (di : EMap) {a b : String}
    (hba : containsKV di (b, a) = true)
    (hgt : lookup0 di (a, b) > lookup0 di (b, a)) :
    ∀ (l acc : EMap), ((a, b) ∈ keysOf l ∨ containsKV acc (a, b) = true) →
      containsKV (List.foldl (reduceStep di) acc l) (a, b) = true := by
  intro l
  induction l with
  | nil =>
    intro acc h
    rcases h with h | h
    · exact absurd h (by rw [keysOf_nil]; exact List.not_mem_nil (a, b))
    · exact h
  | cons e l ih =>
    intro acc h
    rw [List.foldl_cons]
    by_cases hk : e.1 = (a, b)
    · refine ih (reduceStep di acc e) (Or.inr ?_)
      unfold reduceStep
      have h11 : e.1.1 = a := congrArg Prod.fst hk
      have h12 : e.1.2 = b := congrArg Prod.snd hk
      rw [h11, h12, if_pos hba, if_pos hgt]
      exact containsKV_setKV_self acc (a, b) _
    · rcases h with h | h
      · rw [keysOf_cons, List.mem_cons] at h
        rcases h with h | h
        · exact absurd h.symm hk
        · exact ih (reduceStep di acc e) (Or.inl h)
      · exact ih (reduceStep di acc e) (Or.inr (containsKV_reduceStep_mono h))

/-- C7: after the Tournament Reducer runs on an edge map with positive
weights, at most one direction per unordered pair survives, every stored
weight is strictly positive, the survivor of a pair present in both
directions is the direction with the larger count weighted by the
difference, and a pair with equal counts loses both directions. -/
theorem reduceEdges_postconditions (di : EMap) (hpos : ∀ e ∈ di, 0 < e.2) :
    (∀ a b : String, ¬(containsKV (reduceEdges di) (a, b) = true ∧
        containsKV (reduceEdges di) (b, a) = true)) ∧
    (∀ e ∈ reduceEdges di, 0 < e.2) ∧
    (∀ a b : String, containsKV di (a, b) = true → containsKV di (b, a) = true →
      (lookup0 di (a, b) > lookup0 di (b, a) →
        lookupKV (reduceEdges di) (a, b) = some (lookup0 di (a, b) - lookup0 di (b, a)) ∧
        containsKV (reduceEdges di) (b, a) = false) ∧
      (lookup0 di (a, b) = lookup0 di (b, a) →
        containsKV (reduceEdges di) (a, b) = false ∧
        containsKV (reduceEdges di) (b, a) = false)) := by
  have hgood := reduceEdges_good di hpos
  have hnod : (keysOf (reduceEdges di)).Nodup := by
    unfold reduceEdges
    exact reduceEdges_fold_keys_nodup di di [] List.nodup_nil
  have hcg : ∀ a b : String, containsKV (reduceEdges di) (a, b) = true →
      lookup0 di (b, a) < lookup0 di (a, b) := by
    intro a b hc
    unfold containsKV at hc
    rcases hl : lookupKV (reduceEdges di) (a, b) with _ | w
    · rw [hl] at hc
      exact absurd hc (by decide)
    · exact (hgood (a, b) w hl).2.1
  refine ⟨?_, ?_, ?_⟩
  · intro a b hcc
    exact absurd (hcg b a hcc.2) (Nat.not_lt.mpr (le_of_lt (hcg a b hcc.1)))
  · intro e he
    have hl : lookupKV (reduceEdges di) e.1 = some e.2 :=
      mem_lookupKV_of_nodup hnod (by rw [prod_eta_pair e]; exact he)
    have hg := hgood e.1 e.2 hl
    rw [hg.2.2]
    exact Nat.sub_pos_of_lt hg.2.1
  · intro a b hab hba
    constructor
    · intro hgt
      have hct : containsKV (reduceEdges di) (a, b) = true := by
        unfold reduceEdges
        refine reduceEdges_fold_mem di hba hgt di [] (Or.inl ?_)
        exact containsKV_iff.mp hab
      constructor
      · unfold containsKV at hct
        rcases hl : lookupKV (reduceEdges di) (a, b) with _ | w
        · rw [hl] at hct
          exact absurd hct (by decide)
        · have hg := hgood (a, b) w hl
          rw [hg.2.2]
      · rcases hcc : containsKV (reduceEdges di) (b, a) with _ | _
        · rfl
        · exact absurd (hcg b a hcc) (Nat.not_lt.mpr (le_of_lt hgt))
    · intro heqw
      constructor
      · rcases hcc : containsKV (reduceEdges di) (a, b) with _ | _
        · rfl
        · exact absurd (hcg a b hcc) (by rw [heqw]; exact Nat.lt_irrefl _)
      · rcases hcc : containsKV (reduceEdges di) (b, a) with _ | _
        · rfl
        · exact absurd (hcg b a hcc) (by rw [heqw]; exact Nat.lt_irrefl _)

/-- C7 witness: a concrete two-direction pair is reduced to its margin. -/
theorem reduceEdges_postconditions_witness :
    lookupKV (reduceEdges [(("A", "B"), 3), (("B", "A"), 1)]) ("A", "B") =
      some (lookup0 [(("A", "B"), 3), (("B", "A"), 1)] ("A", "B") -
        lookup0 [(("A", "B"), 3), (("B", "A"), 1)] ("B", "A")) ∧
    containsKV (reduceEdges [(("A", "B"), 3), (("B", "A"), 1)]) ("B", "A") = false :=
  ((reduceEdges_postconditions [(("A", "B"), 3), (("B", "A"), 1)] (by decide)).2.2
    ("A") ("B") (by decide) (by decide)).1 (by decide)

/- Equality-resolver claims. -/

theorem foldl_inv {α β : Type} (P : β → Prop) (f : β → α → β)
    (hstep : ∀ b a, P b → P (f b a)) : ∀ (l : List α) (b : β), P b → P (List.foldl f b l) := by
  intro l
  induction l with
  | nil =>
    intro b hb
    exact hb
  | cons x xs ih =>
    intro b hb
    rw [List.foldl_cons]
    exact ih (f b x) (hstep b x hb)

theorem aggregate_counts_sum (rl : List RankingJ) (k : String × String) :
    lookup0 (aggregate rl).counts k =
      lookup0 (aggregate rl).di k + lookup0 (aggregate rl).eq k := by
  unfold aggregate
  refine foldl_inv
    (fun s : AggState => ∀ k : String × String,
      lookup0 s.counts k = lookup0 s.di k + lookup0 s.eq k)
    aggStep ?_ rl ⟨[], [], [], []⟩ (fun _ => rfl) k
  intro s j hs k'
  simp only [aggStep]
  by_cases hr : j.rank = 0
  · rw [if_pos hr, if_pos hr]
    by_cases hk : k' = (j.sysA, j.sysB)
    · subst hk
      rw [lookup0_incrKV_self, lookup0_incrKV_self, hs _]
      omega
    · rw [lookup0_incrKV_ne _ hk, lookup0_incrKV_ne _ hk, hs k']
  · rw [if_neg hr, if_neg hr]
    by_cases hk : k' = (j.sysA, j.sysB)
    · subst hk
      rw [lookup0_incrKV_self, lookup0_incrKV_self, hs _]
      omega
    · rw [lookup0_incrKV_ne _ hk, lookup0_incrKV_ne _ hk, hs k']

theorem aggregate_eq_nodup (rl : List RankingJ) : (keysOf (aggregate rl).eq).Nodup := by
  unfold aggregate
  refine foldl_inv (fun s : AggState => (keysOf s.eq).Nodup) aggStep ?_ rl ⟨[], [], [], []⟩
    List.nodup_nil
  intro s j hs
  simp only [aggStep]
  by_cases hr : j.rank = 0
  · rw [if_pos hr]
    exact keysOf_incrKV_nodup _ hs
  · rw [if_neg hr]
    exact hs

theorem containsKV_eraseKV_sub {κ ν : Type} [DecidableEq κ] {m : List (κ × ν)} {k0 k : κ}
    (h : containsKV (eraseKV m k0) k = true) : containsKV m k = true := by
  unfold containsKV at h
  rcases hl : lookupKV (eraseKV m k0) k with _ | v
  · rw [hl] at h
    simp at h
  · exact containsKV_iff.mpr (mem_keysOf_of_mem (mem_eraseKV (lookupKV_mem hl)).1)

theorem containsKV_eqStep_sub {eq counts di : EMap} {e : (String × String) × Nat}
    {k : String × String} (h : containsKV (eqStep eq counts di e) k = true) :
    containsKV di k = true := by
  unfold eqStep at h
  by_cases hc : 2 * (e.2 + lookup0 eq (e.1.2, e.1.1)) ≥
      lookup0 counts (e.1.1, e.1.2) + lookup0 counts (e.1.2, e.1.1)
  · rw [if_pos hc] at h
    exact containsKV_eraseKV_sub (containsKV_eraseKV_sub h)
  · rw [if_neg hc] at h
    exact h

theorem containsKV_erase2_self {di : EMap} (x y : String × String) :
    containsKV (eraseKV (eraseKV di x) y) x = false ∧
    containsKV (eraseKV (eraseKV di x) y) y = false := by
  constructor
  · by_cases hxy : x = y
    · subst hxy
      unfold containsKV
      rw [lookupKV_eraseKV_self]
      rfl
    · unfold containsKV
      rw [lookupKV_eraseKV_ne _ hxy, lookupKV_eraseKV_self]
      rfl
  · unfold containsKV
    rw [lookupKV_eraseKV_self]
    rfl

theorem pair_swap_ne {a b : String} {e : String × String} (h1 : e ≠ (a, b)) :
    (e.2, e.1) ≠ (b, a) := by
  intro hc
  apply h1
  have h2 : e.2 = b := congrArg Prod.fst hc
  have h3 : e.1 = a := congrArg Prod.snd hc
  rw [← prod_eta_pair e, h2, h3]

theorem eqResolve_fold_keeps (eq counts : EMap) (hn : (keysOf eq).Nodup) (a b : String)
    (hcond : 2 * (lookup0 eq (a, b) + lookup0 eq (b, a)) <
      lookup0 counts (a, b) + lookup0 counts (b, a)) :
    ∀ (l : EMap), (∀ e ∈ l, e ∈ eq) → ∀ di : EMap,
      lookupKV (List.foldl (eqStep eq counts) di l) (a, b) = lookupKV di (a, b) ∧
      lookupKV (List.foldl (eqStep eq counts) di l) (b, a) = lookupKV di (b, a) := by
  intro l
  induction l with
  | nil =>
    intro _ di
    exact ⟨rfl, rfl⟩
  | cons e l ih =>
    intro hsub di
    rw [List.foldl_cons]
    have hstep : lookupKV (eqStep eq counts di e) (a, b) = lookupKV di (a, b) ∧
        lookupKV (eqStep eq counts di e) (b, a) = lookupKV di (b, a) := by
      unfold eqStep
      by_cases hk1 : e.1 = (a, b)
      · have h11 : e.1.1 = a := congrArg Prod.fst hk1
        have h12 : e.1.2 = b := congrArg Prod.snd hk1
        have hv : e.2 = lookup0 eq (a, b) := by
          have hl : lookupKV eq (a, b) = some e.2 := by
            rw [← hk1]
            exact mem_lookupKV_of_nodup hn (by
              rw [prod_eta_pair e]
              exact hsub e (List.mem_cons_self e l))
          unfold lookup0
          rw [hl]
          rfl
        rw [if_neg (by rw [h11, h12, hv]; omega)]
        exact ⟨rfl, rfl⟩
      · by_cases hk2 : e.1 = (b, a)
        · have h11 : e.1.1 = b := congrArg Prod.fst hk2
          have h12 : e.1.2 = a := congrArg Prod.snd hk2
          have hv : e.2 = lookup0 eq (b, a) := by
            have hl : lookupKV eq (b, a) = some e.2 := by
              rw [← hk2]
              exact mem_lookupKV_of_nodup hn (by
                rw [prod_eta_pair e]
                exact hsub e (List.mem_cons_self e l))
            unfold lookup0
            rw [hl]
            rfl
          rw [if_neg (by rw [h11, h12, hv]; omega)]
          exact ⟨rfl, rfl⟩
        · by_cases hc : 2 * (e.2 + lookup0 eq (e.1.2, e.1.1)) ≥
              lookup0 counts (e.1.1, e.1.2) + lookup0 counts (e.1.2, e.1.1)
          · rw [if_pos hc]
            have hne1 : (a, b) ≠ (e.1.1, e.1.2) := by
              rw [prod_eta_pair e.1]
              exact fun hh => hk1 hh.symm
            have hne2 : (b, a) ≠ (e.1.1, e.1.2) := by
              rw [prod_eta_pair e.1]
              exact fun hh => hk2 hh.symm
            have hne3 : (a, b) ≠ (e.1.2, e.1.1) := fun hh => pair_swap_ne hk2 hh.symm
            have hne4 : (b, a) ≠ (e.1.2, e.1.1) := fun hh => pair_swap_ne hk1 hh.symm
            constructor
            · rw [lookupKV_eraseKV_ne _ hne3, lookupKV_eraseKV_ne _ hne1]
            · rw [lookupKV_eraseKV_ne _ hne4, lookupKV_eraseKV_ne _ hne2]
          · rw [if_neg hc]
            exact ⟨rfl, rfl⟩
    have hrest := ih (fun x hx => hsub x (List.mem_cons_of_mem e hx)) (eqStep eq counts di e)
    exact ⟨hrest.1.trans hstep.1, hrest.2.trans hstep.2⟩

theorem eqResolve_fold_removes (eq counts : EMap) (hn : (keysOf eq).Nodup) (a b : String)
    (hcond : 2 * (lookup0 eq (a, b) + lookup0 eq (b, a)) ≥
      lookup0 counts (a, b) + lookup0 counts (b, a)) :
    ∀ (l : EMap), (∀ e ∈ l, e ∈ eq) → ∀ di : EMap,
      ((∃ e ∈ l, e.1 = (a, b) ∨ e.1 = (b, a)) ∨
        (containsKV di (a, b) = false ∧ containsKV di (b, a) = false)) →
      containsKV (List.foldl (eqStep eq counts) di l) (a, b) = false ∧
      containsKV (List.foldl (eqStep eq counts) di l) (b, a) = false := by
  intro l
  induction l with
  | nil =>
    intro _ di h
    rcases h with h | h
    · rcases h with ⟨e, he, _⟩
      exact absurd he (List.not_mem_nil e)
    · exact h
  | cons e l ih =>
    intro hsub di h
    rw [List.foldl_cons]
    have habs : ∀ di' : EMap, containsKV di' (a, b) = false ∧ containsKV di' (b, a) = false →
        containsKV (eqStep eq counts di' e) (a, b) = false ∧
        containsKV (eqStep eq counts di' e) (b, a) = false := by
      intro di' hd
      constructor
      · rcases hc : containsKV (eqStep eq counts di' e) (a, b) with _ | _
        · rfl
        · exact absurd (containsKV_eqStep_sub hc) (by rw [hd.1]; exact Bool.false_ne_true)
      · rcases hc : containsKV (eqStep eq counts di' e) (b, a) with _ | _
        · rfl
        · exact absurd (containsKV_eqStep_sub hc) (by rw [hd.2]; exact Bool.false_ne_true)
    by_cases hk : e.1 = (a, b) ∨ e.1 = (b, a)
    · refine ih (fun x hx => hsub x (List.mem_cons_of_mem e hx)) (eqStep eq counts di e)
        (Or.inr ?_)
      have hmem : e ∈ eq := hsub e (List.mem_cons_self e l)
      unfold eqStep
      rcases hk with hk | hk
      · have h11 : e.1.1 = a := congrArg Prod.fst hk
        have h12 : e.1.2 = b := congrArg Prod.snd hk
        have hv : e.2 = lookup0 eq (a, b) := by
          have hl : lookupKV eq (a, b) = some e.2 := by
            rw [← hk]
            exact mem_lookupKV_of_nodup hn (by rw [prod_eta_pair e]; exact hmem)
          unfold lookup0
          rw [hl]
          rfl
        rw [if_pos (by rw [h11, h12, hv]; omega)]
        rw [h11, h12]
        exact containsKV_erase2_self (a, b) (b, a)
      · have h11 : e.1.1 = b := congrArg Prod.fst hk
        have h12 : e.1.2 = a := congrArg Prod.snd hk
        have hv : e.2 = lookup0 eq (b, a) := by
          have hl : lookupKV eq (b, a) = some e.2 := by
            rw [← hk]
            exact mem_lookupKV_of_nodup hn (by rw [prod_eta_pair e]; exact hmem)
          unfold lookup0
          rw [hl]
          rfl
        rw [if_pos (by rw [h11, h12, hv]; omega)]
        rw [h11, h12]
        exact ⟨(containsKV_erase2_self (b, a) (a, b)).2, (containsKV_erase2_self (b, a) (a, b)).1⟩
    · rcases h with h | h
      · rcases h with ⟨e', he', hke'⟩
        rcases List.mem_cons.mp he' with h1 | h1
        · exact absurd (h1 ▸ hke') hk
        · exact ih (fun x hx => hsub x (List.mem_cons_of_mem e hx)) (eqStep eq counts di e)
            (Or.inl ⟨e', h1, hke'⟩)
      · exact ih (fun x hx => hsub x (List.mem_cons_of_mem e hx)) (eqStep eq counts di e)
          (Or.inr (habs di h))

theorem containsKV_setKV_cases {κ ν : Type} [DecidableEq κ] {m : List (κ × ν)} {k0 k : κ}
    {v : ν} (h : containsKV (setKV m k0 v) k = true) :
    containsKV m k = true ∨ k = k0 := by
  have hk := containsKV_iff.mp h
  rw [keysOf_setKV] at hk
  by_cases hc : containsKV m k0
  · rw [if_pos hc] at hk
    exact Or.inl (containsKV_iff.mpr hk)
  · rw [if_neg hc] at hk
    rcases List.mem_append.mp hk with h1 | h1
    · exact Or.inl (containsKV_iff.mpr h1)
    · exact Or.inr (List.mem_singleton.mp h1)

theorem reduceEdges_keys_sub (di : EMap) :
    ∀ k, containsKV (reduceEdges di) k = true → containsKV di k = true := by
  unfold reduceEdges
  have hgen : ∀ (l acc : EMap), (∀ e ∈ l, e ∈ di) →
      (∀ k, containsKV acc k = true → containsKV di k = true) →
      ∀ k, containsKV (List.foldl (reduceStep di) acc l) k = true →
        containsKV di k = true := by
    intro l
    induction l with
    | nil =>
      intro acc _ hacc k h
      exact hacc k h
    | cons e l ih =>
      intro acc hsub hacc k h
      rw [List.foldl_cons] at h
      refine ih (reduceStep di acc e) (fun x hx => hsub x (List.mem_cons_of_mem e hx)) ?_ k h
      intro k' hk'
      have hedi : containsKV di (e.1.1, e.1.2) = true := by
        rw [prod_eta_pair e.1]
        exact containsKV_iff.mpr (mem_keysOf_of_mem (hsub e (List.mem_cons_self e l)))
      unfold reduceStep at hk'
      by_cases h1 : containsKV di (e.1.2, e.1.1) = true
      · rw [if_pos h1] at hk'
        by_cases h2 : lookup0 di (e.1.1, e.1.2) > lookup0 di (e.1.2, e.1.1)
        · rw [if_pos h2] at hk'
          rcases containsKV_setKV_cases hk' with h3 | h3
          · exact hacc k' h3
          · rw [h3]
            exact hedi
        · rw [if_neg h2] at hk'
          by_cases h3 : lookup0 di (e.1.2, e.1.1) > lookup0 di (e.1.1, e.1.2)
          · rw [if_pos h3] at hk'
            rcases containsKV_setKV_cases hk' with h4 | h4
            · exact hacc k' h4
            · rw [h4]
              exact h1
          · rw [if_neg h3] at hk'
            exact hacc k' hk'
      · rw [if_neg h1] at hk'
        rcases containsKV_setKV_cases hk' with h3 | h3
        · exact hacc k' h3
        · rw [h3]
          exact hedi
  exact hgen di [] (fun e he => he) (fun k h => absurd h (by unfold containsKV; simp [lookupKV]))

/-- C6: for an unordered pair with at least one equality judgment, if
twice the combined tie count is at least the total evidence (the exact
form of tie fraction >= 0.5), both directed win-edges for the pair are
deleted and no directed edge for the pair survives into the tournament;
if the fraction is below 0.5 the pair's directed edges are left exactly
as aggregated. -/
theorem equality_resolver_majority (rl : List RankingJ) (a b : String)
    (heq : containsKV (aggregate rl).eq (a, b) = true ∨
      containsKV (aggregate rl).eq (b, a) = true) :
    (2 * (lookup0 (aggregate rl).eq (a, b) + lookup0 (aggregate rl).eq (b, a)) ≥
        (lookup0 (aggregate rl).di (a, b) + lookup0 (aggregate rl).di (b, a)) +
          (lookup0 (aggregate rl).eq (a, b) + lookup0 (aggregate rl).eq (b, a)) →
      containsKV (eqResolve (aggregate rl).eq (aggregate rl).counts (aggregate rl).di)
          (a, b) = false ∧
      containsKV (eqResolve (aggregate rl).eq (aggregate rl).counts (aggregate rl).di)
          (b, a) = false ∧
      containsKV (reduceEdges (eqResolve (aggregate rl).eq (aggregate rl).counts
          (aggregate rl).di)) (a, b) = false ∧
      containsKV (reduceEdges (eqResolve (aggregate rl).eq (aggregate rl).counts
          (aggregate rl).di)) (b, a) = false) ∧
    (2 * (lookup0 (aggregate rl).eq (a, b) + lookup0 (aggregate rl).eq (b, a)) <
        (lookup0 (aggregate rl).di (a, b) + lookup0 (aggregate rl).di (b, a)) +
          (lookup0 (aggregate rl).eq (a, b) + lookup0 (aggregate rl).eq (b, a)) →
      lookupKV (eqResolve (aggregate rl).eq (aggregate rl).counts (aggregate rl).di) (a, b) =
        lookupKV (aggregate rl).di (a, b) ∧
      lookupKV (eqResolve (aggregate rl).eq (aggregate rl).counts (aggregate rl).di) (b, a) =
        lookupKV (aggregate rl).di (b, a)) := by
  have hsum : lookup0 (aggregate rl).counts (a, b) + lookup0 (aggregate rl).counts (b, a) =
      (lookup0 (aggregate rl).di (a, b) + lookup0 (aggregate rl).di (b, a)) +
        (lookup0 (aggregate rl).eq (a, b) + lookup0 (aggregate rl).eq (b, a)) := by
    rw [aggregate_counts_sum rl (a, b), aggregate_counts_sum rl (b, a)]
    omega
  have hn := aggregate_eq_nodup rl
  constructor
  · intro hge
    have hpair : ∃ e ∈ (aggregate rl).eq, e.1 = (a, b) ∨ e.1 = (b, a) := by
      rcases heq with h | h
      · unfold containsKV at h
        rcases hl : lookupKV (aggregate rl).eq (a, b) with _ | v
        · rw [hl] at h
          exact absurd h (by decide)
        · exact ⟨((a, b), v), lookupKV_mem hl, Or.inl rfl⟩
      · unfold containsKV at h
        rcases hl : lookupKV (aggregate rl).eq (b, a) with _ | v
        · rw [hl] at h
          exact absurd h (by decide)
        · exact ⟨((b, a), v), lookupKV_mem hl, Or.inr rfl⟩
    have hrem := eqResolve_fold_removes (aggregate rl).eq (aggregate rl).counts hn a b
      (by rw [hsum]; exact hge) (aggregate rl).eq (fun e he => he) (aggregate rl).di
      (Or.inl hpair)
    have hrem2 : containsKV (eqResolve (aggregate rl).eq (aggregate rl).counts
          (aggregate rl).di) (a, b) = false ∧
        containsKV (eqResolve (aggregate rl).eq (aggregate rl).counts
          (aggregate rl).di) (b, a) = false := hrem
    refine ⟨hrem2.1, hrem2.2, ?_, ?_⟩
    · rcases hc : containsKV (reduceEdges (eqResolve (aggregate rl).eq (aggregate rl).counts
          (aggregate rl).di)) (a, b) with _ | _
      · rfl
      · exact absurd (reduceEdges_keys_sub _ _ hc) (by rw [hrem2.1]; exact Bool.false_ne_true)
    · rcases hc : containsKV (reduceEdges (eqResolve (aggregate rl).eq (aggregate rl).counts
          (aggregate rl).di)) (b, a) with _ | _
      · rfl
      · exact absurd (reduceEdges_keys_sub _ _ hc) (by rw [hrem2.2]; exact Bool.false_ne_true)
  · intro hlt
    exact eqResolve_fold_keeps (aggregate rl).eq (aggregate rl).counts hn a b
      (by rw [hsum]; exact hlt) (aggregate rl).eq (fun e he => he) (aggregate rl).di

/-- C6 witness: in the scenario with four ties and one win the tie
fraction is 4/5, both win-edges are removed and nothing survives into
the tournament. -/
theorem equality_resolver_majority_witness :
    containsKV (eqResolve (aggregate scenarioRl).eq (aggregate scenarioRl).counts
      (aggregate scenarioRl).di) ("A", "B") = false ∧
    containsKV (eqResolve (aggregate scenarioRl).eq (aggregate scenarioRl).counts
      (aggregate scenarioRl).di) ("B", "A") = false ∧
    containsKV (reduceEdges (eqResolve (aggregate scenarioRl).eq
      (aggregate scenarioRl).counts (aggregate scenarioRl).di)) ("A", "B") = false ∧
    containsKV (reduceEdges (eqResolve (aggregate scenarioRl).eq
      (aggregate scenarioRl).counts (aggregate scenarioRl).di)) ("B", "A") = false :=
  (equality_resolver_majority scenarioRl ("A") ("B") (by decide)).1 (by decide)

/- Cost-function lemmas for the MFAS optimality claim. -/

theorem foldl_inv_mem {α β : Type} (P : β → Prop) (f : β → α → β) :
    ∀ (l : List α), (∀ b a, a ∈ l → P b → P (f b a)) → ∀ b, P b → P (List.foldl f b l) := by
  intro l
  induction l with
  | nil =>
    intro _ b hb
    exact hb
  | cons x xs ih =>
    intro hstep b hb
    rw [List.foldl_cons]
    exact ih (fun b a ha => hstep b a (List.mem_cons_of_mem x ha)) (f b x)
      (hstep b x (List.mem_cons_self x xs) hb)

theorem sumTo_perm (E : EMap) (u : String) {l1 l2 : List String} (h : l1.Perm l2) :
    sumTo E u l1 = sumTo E u l2 := by
  unfold sumTo
  exact (h.map (fun v => lookup0 E (u, v))).sum_eq

theorem remAfter_nil (rem : List String) : remAfter rem [] = rem := rfl

theorem remAfter_cons (rem : List String) (x : String) (q : List String) :
    remAfter rem (x :: q) = remAfter (rem.erase x) q := rfl

theorem remAfter_append_one (rem : List String) (q : List String) (x : String) :
    remAfter rem (q ++ [x]) = (remAfter rem q).erase x := by
  unfold remAfter
  rw [List.foldl_append]
  rfl

theorem placeCost_nil (E : EMap) (rem : List String) : placeCost E rem [] = 0 := rfl

theorem placeCost_cons (E : EMap) (rem : List String) (u : String) (q : List String) :
    placeCost E rem (u :: q) = sumTo E u (rem.erase u) + placeCost E (rem.erase u) q := rfl

theorem flatCost_nil (E : EMap) : flatCost E [] = 0 := rfl

theorem flatCost_cons (E : EMap) (u : String) (q : List String) :
    flatCost E (u :: q) = sumTo E u q + flatCost E q := rfl

theorem backCost_nil (E : EMap) : backCost E [] = 0 := rfl

theorem backCost_cons (E : EMap) (u : String) (q : List String) :
    backCost E (u :: q) = (q.map (fun v => lookup0 E (v, u))).sum + backCost E q := rfl

theorem placeCost_append (E : EMap) :
    ∀ (q : List String) (rem q' : List String),
      placeCost E rem (q ++ q') = placeCost E rem q + placeCost E (remAfter rem q) q' := by
  intro q
  induction q with
  | nil =>
    intro rem q'
    rw [List.nil_append, remAfter_nil, placeCost_nil]
    omega
  | cons u q ih =>
    intro rem q'
    rw [List.cons_append, placeCost_cons, placeCost_cons, ih (rem.erase u) q', remAfter_cons]
    omega

theorem remAfter_eq_filter :
    ∀ (q rem : List String), rem.Nodup →
      remAfter rem q = rem.filter (fun v => decide (v ∉ q)) := by
  intro q
  induction q with
  | nil =>
    intro rem _
    rw [remAfter_nil]
    have h0 : rem.filter (fun v => decide (v ∉ ([] : List String))) =
        rem.filter (fun _ => true) := by
      apply List.filter_congr
      intro v _
      simp
    rw [h0, List.filter_true]
  | cons x q ih =>
    intro rem hrem
    rw [remAfter_cons, ih (rem.erase x) (hrem.erase x)]
    rw [List.Nodup.erase_eq_filter hrem x, List.filter_filter]
    apply List.filter_congr
    intro v _
    by_cases hvx : v = x
    · subst hvx
      simp
    · by_cases hvq : v ∈ q
      · simp [hvx, hvq]
      · simp [hvx, hvq]

theorem mem_remAfter {rem : List String} (hrem : rem.Nodup) (q : List String) (v : String) :
    v ∈ remAfter rem q ↔ (v ∈ rem ∧ v ∉ q) := by
  rw [remAfter_eq_filter q rem hrem, List.mem_filter]
  simp

theorem nodup_remAfter {rem : List String} (hrem : rem.Nodup) (q : List String) :
    (remAfter rem q).Nodup := by
  rw [remAfter_eq_filter q rem hrem]
  exact hrem.filter _

theorem remAfter_congr {rem : List String} (hrem : rem.Nodup) {q1 q2 : List String}
    (h : q1.Perm q2) : remAfter rem q1 = remAfter rem q2 := by
  rw [remAfter_eq_filter q1 rem hrem, remAfter_eq_filter q2 rem hrem]
  apply List.filter_congr
  intro v _
  by_cases hv : v ∈ q1
  · simp [hv, h.mem_iff.mp hv]
  · have hv2 : v ∉ q2 := fun hc => hv (h.mem_iff.mpr hc)
    simp [hv, hv2]

theorem placeCost_perm_flat (E : EMap) :
    ∀ (q rem : List String), q.Perm rem → placeCost E rem q = flatCost E q := by
  intro q
  induction q with
  | nil =>
    intro rem _
    rfl
  | cons u q ih =>
    intro rem hperm
    have hq : q.Perm (rem.erase u) := (List.cons_perm_iff_perm_erase.mp hperm).2
    rw [placeCost_cons, flatCost_cons, ih (rem.erase u) hq, sumTo_perm E u hq.symm]

theorem backCost_append_one (E : EMap) :
    ∀ (xs : List String) (u : String),
      backCost E (xs ++ [u]) = sumTo E u xs + backCost E xs := by
  intro xs
  induction xs with
  | nil =>
    intro u
    rw [List.nil_append, backCost_cons, backCost_nil]
    unfold sumTo
    simp
  | cons x xs ih =>
    intro u
    rw [List.cons_append, backCost_cons, ih u, backCost_cons]
    unfold sumTo
    rw [List.map_append, List.sum_append, List.map_cons, List.map_nil, List.sum_cons,
      List.sum_nil, List.map_cons, List.sum_cons]
    omega

theorem flatCost_eq_backCost_reverse (E : EMap) :
    ∀ q : List String, flatCost E q = backCost E q.reverse := by
  intro q
  induction q with
  | nil => rfl
  | cons u q ih =>
    rw [List.reverse_cons, backCost_append_one, flatCost_cons, ih,
      sumTo_perm E u q.reverse_perm.symm]

/- Well-formedness of search hypotheses. -/

theorem wf_init (E : EMap) (V : List String) : WfH E V Hypothesis.init := by
  refine ⟨List.nodup_nil, ?_, ?_, rfl, ?_⟩
  · intro v hv
    exact absurd hv (List.not_mem_nil v)
  · intro i
    constructor
    · intro hb
      rw [show Hypothesis.init.state = 0 from rfl, Nat.zero_testBit] at hb
      exact absurd hb Bool.false_ne_true
    · intro hb
      exact absurd hb.2 (List.not_mem_nil _)
  · show 0 < 2 ^ V.length
    exact Nat.pos_pow_of_pos V.length (by decide)

theorem nodup_uncovered (n s : Nat) : (uncovered n s).Nodup :=
  (List.nodup_range n).filter _

theorem child_bits {E : EMap} {V : List String} {h : Hypothesis} (hV : V.Nodup)
    (hw : WfH E V h) {u : Nat} (hu : u < V.length) (_hb : h.state.testBit u = false) :
    ∀ i, (childState h.state u).testBit i ↔
      (i < V.length ∧ V.getD i blankId ∈ h.placement ++ [V.getD u blankId]) := by
  intro i
  unfold childState
  rw [Nat.testBit_or, Nat.one_shiftLeft, Nat.testBit_two_pow]
  constructor
  · intro hor
    rcases Bool.or_eq_true_iff.mp hor with h1 | h1
    · rcases (hw.bits i).mp h1 with ⟨hin, hmem⟩
      exact ⟨hin, List.mem_append_left _ hmem⟩
    · have hui : u = i := of_decide_eq_true h1
      subst hui
      exact ⟨hu, List.mem_append_right _ (List.mem_singleton.mpr rfl)⟩
  · intro hmem
    rcases List.mem_append.mp hmem.2 with h1 | h1
    · exact Bool.or_eq_true_iff.mpr (Or.inl ((hw.bits i).mpr ⟨hmem.1, h1⟩))
    · have h1g : V.getD i blankId = V.getD u blankId := List.mem_singleton.mp h1
      have e1 := List.getD_eq_getElem V blankId hmem.1
      have e2 := List.getD_eq_getElem V blankId hu
      have hui : i = u := (hV.getElem_inj_iff).mp (e1.symm.trans (h1g.trans e2))
      refine Bool.or_eq_true_iff.mpr (Or.inr ?_)
      rw [hui]
      simp

theorem uncovered_map_perm {V : List String} (hV : V.Nodup) {S : Nat} {pl : List String}
    (hbits : ∀ i, S.testBit i ↔ (i < V.length ∧ V.getD i blankId ∈ pl)) :
    ((uncovered V.length S).map (fun i => V.getD i blankId)).Perm (remAfter V pl) := by
  have hLnodup : ((uncovered V.length S).map (fun i => V.getD i blankId)).Nodup := by
    refine (nodup_uncovered V.length S).map_on ?_
    intro x hx y hy hxy
    have hxl : x < V.length := (mem_uncovered.mp hx).1
    have hyl : y < V.length := (mem_uncovered.mp hy).1
    rw [List.getD_eq_getElem _ _ hxl, List.getD_eq_getElem _ _ hyl] at hxy
    exact (hV.getElem_inj_iff).mp hxy
  have hRnodup : (remAfter V pl).Nodup := nodup_remAfter hV pl
  have hsub1 : ∀ v, v ∈ (uncovered V.length S).map (fun i => V.getD i blankId) →
      v ∈ remAfter V pl := by
    intro v hv
    rcases List.mem_map.mp hv with ⟨i, hi, hgi⟩
    rcases mem_uncovered.mp hi with ⟨hin, hbit⟩
    rw [mem_remAfter hV]
    constructor
    · rw [← hgi]
      exact getD_mem_of_lt hin
    · intro hvpl
      have : S.testBit i = true := (hbits i).mpr ⟨hin, by rw [hgi]; exact hvpl⟩
      rw [hbit] at this
      exact Bool.false_ne_true this
  have hsub2 : ∀ v, v ∈ remAfter V pl →
      v ∈ (uncovered V.length S).map (fun i => V.getD i blankId) := by
    intro v hv
    rcases (mem_remAfter hV pl v).mp hv with ⟨hvV, hvpl⟩
    rcases List.getElem_of_mem hvV with ⟨i, hin, hgi⟩
    have hgd : V.getD i blankId = v := by
      rw [List.getD_eq_getElem _ _ hin]
      exact hgi
    have hbit : S.testBit i = false := by
      rcases hb : S.testBit i with _ | _
      · rfl
      · rcases (hbits i).mp hb with ⟨_, hmem⟩
        rw [hgd] at hmem
        exact absurd hmem hvpl
    exact List.mem_map.mpr ⟨i, mem_uncovered.mpr ⟨hin, hbit⟩, hgd⟩
  exact List.Subperm.antisymm (hLnodup.subperm hsub1) (hRnodup.subperm hsub2)

theorem addedCost_eq_sumTo (E : EMap) (V : List String) (uId : String) (ns : Nat) :
    addedCost E V uId ns =
      sumTo E uId ((uncovered V.length ns).map (fun i => V.getD i blankId)) := by
  unfold addedCost sumTo
  rw [List.map_map]
  rfl

theorem wf_child {E : EMap} {V : List String} {h : Hypothesis} (hV : V.Nodup)
    (hw : WfH E V h) {u : Nat} (hu : u < V.length) (hb : h.state.testBit u = false) :
    WfH E V (Hypothesis.node (h.cost + addedCost E V (V.getD u blankId) (childState h.state u))
      (childState h.state u) h (V.getD u blankId)) := by
  have hnotin : V.getD u blankId ∉ h.placement := by
    intro hc
    have : h.state.testBit u = true := (hw.bits u).mpr ⟨hu, hc⟩
    rw [hb] at this
    exact Bool.false_ne_true this
  have hplace : (Hypothesis.node (h.cost + addedCost E V (V.getD u blankId)
      (childState h.state u)) (childState h.state u) h (V.getD u blankId)).placement =
      h.placement ++ [V.getD u blankId] := rfl
  refine ⟨?_, ?_, ?_, ?_, ?_⟩
  · rw [hplace]
    rw [List.nodup_append]
    refine ⟨hw.nodup, List.nodup_singleton _, ?_⟩
    intro a ha hb2
    rw [List.mem_singleton] at hb2
    rw [hb2] at ha
    exact hnotin ha
  · rw [hplace]
    intro v hv
    rcases List.mem_append.mp hv with h1 | h1
    · exact hw.sub v h1
    · rw [List.mem_singleton.mp h1]
      exact getD_mem_of_lt hu
  · rw [hplace]
    exact child_bits hV hw hu hb
  · rw [hplace]
    show h.cost + addedCost E V (V.getD u blankId) (childState h.state u) =
      placeCost E V (h.placement ++ [V.getD u blankId])
    rw [placeCost_append, hw.cost]
    congr 1
    rw [placeCost_cons, placeCost_nil, Nat.add_zero]
    rw [addedCost_eq_sumTo]
    refine sumTo_perm E _ ?_
    have hperm := uncovered_map_perm hV (child_bits hV hw hu hb)
    rw [remAfter_append_one] at hperm
    exact hperm
  · show childState h.state u < 2 ^ V.length
    unfold childState
    refine Nat.or_lt_two_pow hw.lt ?_
    rw [Nat.one_shiftLeft]
    exact Nat.pow_lt_pow_right (by decide) hu

theorem wf_goal_perm {E : EMap} {V : List String} {h : Hypothesis} (hV : V.Nodup)
    (hw : WfH E V h) (hg : h.state = goalState V.length) : h.placement.Perm V := by
  have hsub1 : ∀ v, v ∈ h.placement → v ∈ V := hw.sub
  have hsub2 : ∀ v, v ∈ V → v ∈ h.placement := by
    intro v hv
    rcases List.getElem_of_mem hv with ⟨i, hin, hgi⟩
    have hbit : h.state.testBit i = true := by
      rw [hg]
      unfold goalState
      rw [Nat.testBit_two_pow_sub_one]
      exact decide_eq_true hin
    rcases (hw.bits i).mp hbit with ⟨_, hmem⟩
    rw [List.getD_eq_getElem _ _ hin, hgi] at hmem
    exact hmem
  exact List.Subperm.antisymm (hw.nodup.subperm hsub1) (hV.subperm hsub2)

theorem wf_perm_goal {E : EMap} {V : List String} {h : Hypothesis}
    (hw : WfH E V h) (hp : h.placement.Perm V) : h.state = goalState V.length := by
  apply Nat.eq_of_testBit_eq
  intro i
  unfold goalState
  rw [Nat.testBit_two_pow_sub_one]
  by_cases hi : i < V.length
  · have hmem : V.getD i blankId ∈ h.placement :=
      hp.mem_iff.mpr (getD_mem_of_lt hi)
    rw [(hw.bits i).mpr ⟨hi, hmem⟩]
    exact (decide_eq_true hi).symm
  · rcases hb : h.state.testBit i with _ | _
    · exact (decide_eq_false hi).symm
    · exact absurd ((hw.bits i).mp hb).1 hi

theorem wf_state_perm {E : EMap} {V : List String} {h1 h2 : Hypothesis}
    (hw1 : WfH E V h1) (hw2 : WfH E V h2) (hs : h1.state = h2.state) :
    h1.placement.Perm h2.placement := by
  have hsub : ∀ (g1 g2 : Hypothesis), WfH E V g1 → WfH E V g2 → g1.state = g2.state →
      ∀ v, v ∈ g1.placement → v ∈ g2.placement := by
    intro g1 g2 hg1 hg2 hgs v hv
    have hvV : v ∈ V := hg1.sub v hv
    rcases List.getElem_of_mem hvV with ⟨i, hin, hgi⟩
    have hgd : V.getD i blankId = v := by
      rw [List.getD_eq_getElem _ _ hin]
      exact hgi
    have hbit : g1.state.testBit i = true := (hg1.bits i).mpr ⟨hin, by rw [hgd]; exact hv⟩
    rw [hgs] at hbit
    rcases (hg2.bits i).mp hbit with ⟨_, hmem⟩
    rw [hgd] at hmem
    exact hmem
  exact List.Subperm.antisymm (hw1.nodup.subperm (hsub h1 h2 hw1 hw2 hs))
    (hw2.nodup.subperm (hsub h2 h1 hw2 hw1 hs.symm))

/- Agenda invariant for the search loop. -/

theorem inv_init (E : EMap) (V : List String) : InvAgenda E V [(0, Hypothesis.init)] := by
  refine ⟨List.nodup_singleton 0, ?_, ?_⟩
  · intro st h hl
    rw [lookupKV_cons] at hl
    by_cases h0 : (((0 : Nat), Hypothesis.init) : Nat × Hypothesis).1 = st
    · rw [if_pos h0] at hl
      have hh : Hypothesis.init = h := Option.some.inj hl
      rw [← hh]
      exact ⟨h0.symm ▸ rfl, wf_init E V⟩
    · rw [if_neg h0, lookupKV_nil] at hl
      exact Option.noConfusion hl
  · intro p _
    refine ⟨[], Hypothesis.init, ⟨p, rfl⟩, ?_, List.Perm.refl [], ?_⟩
    · rfl
    · rw [placeCost_nil]
      exact Nat.le_refl _

theorem lookupKV_updateAgenda_cases {ag : AgendaT} {st0 : Nat} {hn : Hypothesis} {st : Nat}
    {h2 : Hypothesis} (hl : lookupKV (updateAgenda ag st0 hn) st = some h2) :
    lookupKV ag st = some h2 ∨ (st = st0 ∧ h2 = hn) := by
  by_cases hk : st = st0
  · subst hk
    rcases lookupKV_updateAgenda_self ag st hn with ⟨h3, heq, _, hor⟩
    rw [heq] at hl
    have h23 : h3 = h2 := Option.some.inj hl
    rcases hor with hor | hor
    · exact Or.inr ⟨rfl, h23 ▸ hor⟩
    · exact Or.inl (h23 ▸ hor)
  · rw [lookupKV_updateAgenda_ne ag hn hk] at hl
    exact Or.inl hl

theorem expand_wf {E : EMap} {V : List String} {h : Hypothesis} (hV : V.Nodup)
    (hw : WfH E V h) (ag : AgendaT)
    (hag : ∀ st h2, lookupKV ag st = some h2 → h2.state = st ∧ WfH E V h2) :
    ∀ st h2, lookupKV (expandHyp E V h ag) st = some h2 → h2.state = st ∧ WfH E V h2 := by
  unfold expandHyp
  refine foldl_inv_mem
    (fun ag2 : AgendaT => ∀ st h2, lookupKV ag2 st = some h2 → h2.state = st ∧ WfH E V h2)
    (expandStep E V h) (uncovered V.length h.state) ?_ ag hag
  intro ag2 u hu hag2 st h2 hl
  rcases mem_uncovered.mp hu with ⟨hun, hub⟩
  unfold expandStep at hl
  rcases lookupKV_updateAgenda_cases hl with h1 | h1
  · exact hag2 st h2 h1
  · rcases h1 with ⟨hst, hh2⟩
    subst hst
    rw [hh2]
    exact ⟨rfl, wf_child hV hw hun hub⟩

theorem expand_keys_nodup {E : EMap} {V : List String} {h : Hypothesis} (ag : AgendaT)
    (hag : (keysOf ag).Nodup) : (keysOf (expandHyp E V h ag)).Nodup := by
  unfold expandHyp
  refine foldl_inv_mem (fun ag2 : AgendaT => (keysOf ag2).Nodup)
    (expandStep E V h) (uncovered V.length h.state) ?_ ag hag
  intro ag2 u _ h2
  exact keysOf_updateAgenda_nodup _ _ h2

theorem costAt_updateAgenda {ag : AgendaT} {st' : Nat} {c : Nat} (st : Nat) (hn : Hypothesis)
    (hc : ∃ h2, lookupKV ag st' = some h2 ∧ h2.cost ≤ c) :
    ∃ h2, lookupKV (updateAgenda ag st hn) st' = some h2 ∧ h2.cost ≤ c := by
  rcases hc with ⟨h2, hl, hle⟩
  by_cases hk : st' = st
  · subst hk
    rcases lookupKV_updateAgenda_mono ag st' hn hl with ⟨h3, hl3, hle3, _⟩
    exact ⟨h3, hl3, le_trans hle3 hle⟩
  · exact ⟨h2, by rw [lookupKV_updateAgenda_ne ag hn hk]; exact hl, hle⟩

theorem costAt_expand {E : EMap} {V : List String} {h : Hypothesis} {st' : Nat} {c : Nat}
    (ag : AgendaT) (hc : ∃ h2, lookupKV ag st' = some h2 ∧ h2.cost ≤ c) :
    ∃ h2, lookupKV (expandHyp E V h ag) st' = some h2 ∧ h2.cost ≤ c := by
  unfold expandHyp
  refine foldl_inv_mem
    (fun ag2 : AgendaT => ∃ h2, lookupKV ag2 st' = some h2 ∧ h2.cost ≤ c)
    (expandStep E V h) (uncovered V.length h.state) ?_ ag hc
  intro ag2 u _ hc2
  exact costAt_updateAgenda _ _ hc2

theorem costAt_foldl_achieve {E : EMap} {V : List String} {h : Hypothesis} {u : Nat} :
    ∀ (us : List Nat) (ag : AgendaT), u ∈ us →
      ∃ h2, lookupKV (us.foldl (expandStep E V h) ag) (childState h.state u) = some h2 ∧
        h2.cost ≤ h.cost + addedCost E V (V.getD u blankId) (childState h.state u) := by
  intro us
  induction us with
  | nil =>
    intro ag hu
    exact absurd hu (List.not_mem_nil u)
  | cons x us ih =>
    intro ag hu
    rw [List.foldl_cons]
    by_cases hx : x = u
    · subst hx
      have hstep : ∃ h2, lookupKV (expandStep E V h ag x) (childState h.state x) = some h2 ∧
          h2.cost ≤ h.cost + addedCost E V (V.getD x blankId) (childState h.state x) := by
        unfold expandStep
        rcases lookupKV_updateAgenda_self ag (childState h.state x)
          (Hypothesis.node (h.cost + addedCost E V (V.getD x blankId) (childState h.state x))
            (childState h.state x) h (V.getD x blankId)) with ⟨h2, hl, hle, _⟩
        exact ⟨h2, hl, hle⟩
      have hgo : ∀ (l : List Nat) (ag2 : AgendaT),
          (∃ h2, lookupKV ag2 (childState h.state x) = some h2 ∧
            h2.cost ≤ h.cost + addedCost E V (V.getD x blankId) (childState h.state x)) →
          ∃ h2, lookupKV (l.foldl (expandStep E V h) ag2) (childState h.state x) = some h2 ∧
            h2.cost ≤ h.cost + addedCost E V (V.getD x blankId) (childState h.state x) := by
        intro l
        refine foldl_inv_mem _ (expandStep E V h) l ?_
        intro ag3 u2 _ hc3
        exact costAt_updateAgenda _ _ hc3
      exact hgo us (expandStep E V h ag x) hstep
    · rcases List.mem_cons.mp hu with h1 | h1
      · exact absurd h1.symm hx
      · exact ih (expandStep E V h ag x) h1

theorem inv_preserved {E : EMap} {V : List String} {A : AgendaT} {h : Hypothesis}
    (hV : V.Nodup) (inv : InvAgenda E V A) (hmin : minHyp A = some h)
    (hng : h.state ≠ goalState V.length) :
    InvAgenda E V (expandHyp E V h (eraseKV A h.state)) := by
  have hhA : lookupKV A h.state = some h := by
    rcases minHyp_mem hmin with ⟨st, hst⟩
    have hl : lookupKV A st = some h := mem_lookupKV_of_nodup inv.keys hst
    have hse := (inv.wf st h hl).1
    rw [← hse] at hl
    exact hl
  have hwh : WfH E V h := (inv.wf h.state h hhA).2
  have herase_wf : ∀ st h2, lookupKV (eraseKV A h.state) st = some h2 →
      h2.state = st ∧ WfH E V h2 := by
    intro st h2 hl
    by_cases hk : st = h.state
    · subst hk
      rw [lookupKV_eraseKV_self] at hl
      exact Option.noConfusion hl
    · rw [lookupKV_eraseKV_ne A hk] at hl
      exact inv.wf st h2 hl
  refine ⟨?_, ?_, ?_⟩
  · exact expand_keys_nodup _ (keysOf_eraseKV_nodup h.state inv.keys)
  · exact expand_wf hV hwh _ herase_wf
  · intro p hp
    rcases inv.lower p hp with ⟨q, h', ⟨r, hpr⟩, hlk, hqperm, hqcost⟩
    have hwh' : WfH E V h' := (inv.wf h'.state h' hlk).2
    by_cases hcase : h'.state = h.state
    · have hh' : h' = h := by
        rw [hcase] at hlk
        exact Option.some.inj (hlk.symm.trans hhA)
      subst hh'
      rcases r with _ | ⟨x, r'⟩
      · exfalso
        rw [List.append_nil] at hpr
        subst hpr
        exact hng (wf_perm_goal hwh (hqperm.trans hp))
      · have hpnodup : p.Nodup := (hp.nodup_iff).mpr hV
        have hxV : x ∈ V := hp.mem_iff.mp (by
          rw [hpr]
          exact List.mem_append_right q (List.mem_cons_self x r'))
        have hxq : x ∉ q := by
          intro hxq
          rw [hpr] at hpnodup
          rcases List.nodup_append.mp hpnodup with ⟨_, _, hdisj⟩
          exact hdisj hxq (List.mem_cons_self x r')
        have hulen : List.indexOf x V < V.length := List.indexOf_lt_length.mpr hxV
        have hVu : V.getD (List.indexOf x V) blankId = x := by
          rw [List.getD_eq_getElem _ _ hulen]
          exact List.getElem_indexOf hulen
        have hxpl : x ∉ h'.placement := fun hc => hxq (hqperm.mem_iff.mp hc)
        have hbitu : h'.state.testBit (List.indexOf x V) = false := by
          rcases hb2 : h'.state.testBit (List.indexOf x V) with _ | _
          · rfl
          · rcases (hwh.bits _).mp hb2 with ⟨_, hmem⟩
            rw [hVu] at hmem
            exact absurd hmem hxpl
        have humem : List.indexOf x V ∈ uncovered V.length h'.state :=
          mem_uncovered.mpr ⟨hulen, hbitu⟩
        rcases costAt_foldl_achieve (uncovered V.length h'.state) (eraseKV A h'.state) humem
          with ⟨h2, hl2, hle2⟩
        have hl2e : lookupKV (expandHyp E V h' (eraseKV A h'.state))
            (childState h'.state (List.indexOf x V)) = some h2 := hl2
        have hw2 : h2.state = childState h'.state (List.indexOf x V) ∧ WfH E V h2 :=
          expand_wf hV hwh _ herase_wf _ h2 hl2e
        have hchild_wf : WfH E V (Hypothesis.node (h'.cost + addedCost E V
            (V.getD (List.indexOf x V) blankId) (childState h'.state (List.indexOf x V)))
            (childState h'.state (List.indexOf x V)) h' (V.getD (List.indexOf x V) blankId)) :=
          wf_child hV hwh hulen hbitu
        have hchild_cost : h'.cost + addedCost E V (V.getD (List.indexOf x V) blankId)
            (childState h'.state (List.indexOf x V)) ≤ placeCost E V (q ++ [x]) := by
          rw [placeCost_append]
          refine Nat.add_le_add hqcost ?_
          rw [placeCost_cons, placeCost_nil, Nat.add_zero]
          rw [addedCost_eq_sumTo, hVu]
          have hperm1 := uncovered_map_perm hV (child_bits hV hwh hulen hbitu)
          rw [hVu] at hperm1
          have heq2 : remAfter V (h'.placement ++ [x]) = remAfter V (q ++ [x]) :=
            remAfter_congr hV (hqperm.append_right [x])
          rw [heq2, remAfter_append_one] at hperm1
          exact le_of_eq (sumTo_perm E x hperm1)
        refine ⟨q ++ [x], h2, ⟨r', by rw [hpr, List.append_assoc]; rfl⟩, ?_, ?_,
          le_trans hle2 hchild_cost⟩
        · rw [hw2.1]
          exact hl2e
        · have hperm2 := wf_state_perm hw2.2 hchild_wf (by rw [hw2.1]; rfl)
          have hperm2e : h2.placement.Perm
              (h'.placement ++ [V.getD (List.indexOf x V) blankId]) := hperm2
          rw [hVu] at hperm2e
          exact hperm2e.trans (hqperm.append_right [x])
    · have hlk' : lookupKV (eraseKV A h.state) h'.state = some h' := by
        rw [lookupKV_eraseKV_ne A hcase]
        exact hlk
      rcases costAt_expand (eraseKV A h.state) ⟨h', hlk', le_refl h'.cost⟩ with ⟨h2, hl2, hle2⟩
      have hw2 := expand_wf hV hwh _ herase_wf h'.state h2 hl2
      refine ⟨q, h2, ⟨r, hpr⟩, ?_, ?_, le_trans hle2 hqcost⟩
      · rw [hw2.1]
        exact hl2
      · exact (wf_state_perm hw2.2 hwh' hw2.1).trans hqperm

theorem loop_goal_bound {E : EMap} {V : List String} (hV : V.Nodup) :
    ∀ (fuel : Nat) (A : AgendaT) (h : Hypothesis), InvAgenda E V A →
      lopezLoop E V fuel A = some h →
      WfH E V h ∧ h.state = goalState V.length ∧
        ∀ p : List String, p.Perm V → h.cost ≤ placeCost E V p := by
  intro fuel
  induction fuel with
  | zero =>
    intro A h _ hrun
    exact Option.noConfusion hrun
  | succ fuel ih =>
    intro A h inv hrun
    rcases hm : minHyp A with _ | h0
    · rw [lopezLoop_succ_none fuel hm] at hrun
      exact Option.noConfusion hrun
    · rw [lopezLoop_succ_some fuel hm] at hrun
      by_cases hg : h0.state = goalState V.length
      · rw [if_pos hg] at hrun
        have hh : h0 = h := Option.some.inj hrun
        subst hh
        have hlA : lookupKV A h0.state = some h0 := by
          rcases minHyp_mem hm with ⟨st, hst⟩
          have hl := mem_lookupKV_of_nodup inv.keys hst
          have hse := (inv.wf st h0 hl).1
          rw [← hse] at hl
          exact hl
        refine ⟨(inv.wf h0.state h0 hlA).2, hg, ?_⟩
        intro p hp
        rcases inv.lower p hp with ⟨q, h', ⟨r, hpr⟩, hlk, _, hqcost⟩
        have hmem : (h'.state, h') ∈ A := lookupKV_mem hlk
        have hle : h0.cost ≤ h'.cost := minHyp_le hm (h'.state, h') hmem
        have hqp : placeCost E V q ≤ placeCost E V p := by
          rw [hpr, placeCost_append]
          exact Nat.le_add_right _ _
        exact le_trans (le_trans hle hqcost) hqp
      · rw [if_neg hg] at hrun
        exact ih (expandHyp E V h0 (eraseKV A h0.state)) h
          (inv_preserved hV inv hm hg) hrun

/-- C4: for every tournament over a duplicate-free vertex set of size at
most 6 with natural edge weights, the cost of the goal hypothesis
reached by the lowest-cost-first search equals the minimum, over all
permutations of the vertex set, of the total weight of edges pointing
backward relative to that permutation. -/
theorem solver_cost_optimal (E : EMap) (V : List String) (fuel : Nat) (h : Hypothesis)
    (hV : V.Nodup) (_hsize : V.length ≤ 6) (hrun : lopezGoalHyp E V fuel = some h) :
    (∃ p : List String, p.Perm V ∧ backCost E p = h.cost) ∧
    (∀ p : List String, p.Perm V → h.cost ≤ backCost E p) := by
  have hmain := loop_goal_bound hV fuel [(0, Hypothesis.init)] h (inv_init E V) hrun
  rcases hmain with ⟨hw, hg, hbound⟩
  have hplperm : h.placement.Perm V := wf_goal_perm hV hw hg
  constructor
  · refine ⟨h.placement.reverse, h.placement.reverse_perm.trans hplperm, ?_⟩
    rw [← flatCost_eq_backCost_reverse, ← placeCost_perm_flat E h.placement V hplperm]
    exact hw.cost.symm
  · intro p hp
    have hrev : p.reverse.Perm V := p.reverse_perm.trans hp
    have hbc : backCost E p = placeCost E V p.reverse := by
      rw [placeCost_perm_flat E p.reverse V hrev, flatCost_eq_backCost_reverse,
        List.reverse_reverse]
    rw [hbc]
    exact hbound p.reverse hrev

/-- C4 witness: on the single-edge tournament (A, B) with weight 1 over
[A, B], the reached goal hypothesis has cost 0, which is the minimum
backward weight over both orders. -/
theorem solver_cost_optimal_witness :
    (exV.Nodup ∧ exV.length ≤ 6 ∧
      lopezGoalHyp exE exV 9 =
        some (Hypothesis.node 0 3 (Hypothesis.node 0 2 Hypothesis.init ("B")) "A")) ∧
    (∃ p : List String, p.Perm exV ∧ backCost exE p =
      (Hypothesis.node 0 3 (Hypothesis.node 0 2 Hypothesis.init ("B")) "A").cost) ∧
    (∀ p : List String, p.Perm exV →
      (Hypothesis.node 0 3 (Hypothesis.node 0 2 Hypothesis.init ("B")) "A").cost ≤
        backCost exE p) :=
  ⟨⟨by decide, by decide, by decide⟩,
    solver_cost_optimal exE exV 9
      (Hypothesis.node 0 3 (Hypothesis.node 0 2 Hypothesis.init ("B")) "A")
      (by decide) (by decide) (by decide)⟩

/- Path membership for the amended backtracking claim. -/

theorem loop_pathIn {E : EMap} {V : List String} :
    ∀ (fuel : Nat) (A : AgendaT) (h : Hypothesis), (∀ e ∈ A, pathIn V e.2) →
      lopezLoop E V fuel A = some h → pathIn V h := by
  intro fuel
  induction fuel with
  | zero =>
    intro A h _ hrun
    exact Option.noConfusion hrun
  | succ fuel ih =>
    intro A h hA hrun
    rcases hm : minHyp A with _ | h0
    · rw [lopezLoop_succ_none fuel hm] at hrun
      exact Option.noConfusion hrun
    · rw [lopezLoop_succ_some fuel hm] at hrun
      have hp0 : pathIn V h0 := by
        rcases minHyp_mem hm with ⟨st, hst⟩
        exact hA (st, h0) hst
      by_cases hg : h0.state = goalState V.length
      · rw [if_pos hg] at hrun
        exact (Option.some.inj hrun) ▸ hp0
      · rw [if_neg hg] at hrun
        refine ih (expandHyp E V h0 (eraseKV A h0.state)) h ?_ hrun
        unfold expandHyp
        refine foldl_inv_mem (fun ag : AgendaT => ∀ e ∈ ag, pathIn V e.2)
          (expandStep E V h0) (uncovered V.length h0.state) ?_ (eraseKV A h0.state) ?_
        · intro ag u hu hag e he
          rcases mem_updateAgenda he with h1 | h1
          · exact hag e h1
          · rw [h1]
            exact ⟨getD_mem_of_lt (mem_uncovered.mp hu).1, hp0⟩
        · intro e he
          exact hA e (mem_eraseKV he).1

theorem ranking_eq_reverse_of_pathIn {V : List String} (hb : blankId ∉ V) :
    ∀ h : Hypothesis, pathIn V h → h.ranking = h.placement.reverse := by
  intro h
  induction h with
  | init =>
    intro _
    rfl
  | node c s p v ihp =>
    intro hpath
    rcases hpath with ⟨hv, hp⟩
    have hvb : v ≠ blankId := fun hc => hb (hc ▸ hv)
    show (if v = blankId then [] else v :: p.ranking) = (p.placement ++ [v]).reverse
    rw [if_neg hvb, ihp hp, List.reverse_append]
    rfl

/-- C2 (amended): whenever the search reaches the goal state over a
vertex set containing no empty-string identifier, the ranking returned
by backtracking is the reverse of the order in which vertices were
placed: the first element of the returned list is the last-added
vertex. -/
theorem ranking_reverses_placement (E : EMap) (V : List String) (fuel : Nat) (h : Hypothesis)
    (hb : blankId ∉ V) (hrun : lopezGoalHyp E V fuel = some h) :
    h.ranking = h.placement.reverse := by
  have hpath : pathIn V h := by
    refine loop_pathIn fuel [(0, Hypothesis.init)] h ?_ hrun
    intro e he
    rw [List.mem_singleton.mp he]
    exact trivial
  exact ranking_eq_reverse_of_pathIn hb h hpath

/-- C2 amended witness: the concrete goal hypothesis of the two-vertex
search backtracks to the reverse of its placement order. -/
theorem ranking_reverses_placement_witness :
    (blankId ∉ exV ∧ lopezGoalHyp exE exV 9 =
      some (Hypothesis.node 0 3 (Hypothesis.node 0 2 Hypothesis.init ("B")) "A")) ∧
    (Hypothesis.node 0 3 (Hypothesis.node 0 2 Hypothesis.init ("B")) "A").ranking =
      (Hypothesis.node 0 3 (Hypothesis.node 0 2 Hypothesis.init ("B")) "A").placement.reverse :=
  ⟨⟨by decide, by decide⟩,
    ranking_reverses_placement exE exV 9
      (Hypothesis.node 0 3 (Hypothesis.node 0 2 Hypothesis.init ("B")) "A")
      (by decide) (by decide)⟩
